import Mathlib

/-!
# Verification of the spatial subsystem of a tile-grid roguelike

Shallow embedding of the repository's spatial-algorithm modules
(`geometry.rs`, `dijkstra_map.rs`, `disjoint_sets.rs`, `vision.rs`,
`level.rs`) together with theorems settling the frozen claims about them.

Machine integers (`i32`, `isize`, `usize`) are modelled as `Int`/`Nat`;
none of the verified paths can overflow on the inputs considered, so no
wrap-around modelling is required.  Rust `Rational32` slope arithmetic is
modelled as `ℚ`.  Fallible or possibly non-terminating code is modelled
with `Option`/`Except` and explicit fuel.
-/

namespace RL

/-- Integer 2D offset, `Vector<i32>` from `geometry.rs`. -/
structure Vec where
  x : Int
  y : Int
deriving DecidableEq, Repr

/-- Integer 2D grid coordinate, `Point<i32>` from `geometry.rs`. -/
structure Pt where
  x : Int
  y : Int
deriving DecidableEq, Repr

/-- `Point + Vector` (component-wise), from `geometry.rs`. -/
def Pt.add (p : Pt) (v : Vec) : Pt := ⟨p.x + v.x, p.y + v.y⟩

/-- `Rectangle<i32>`: a position and a size, from `geometry.rs`. -/
structure Rect where
  pos : Pt
  size : Vec
deriving DecidableEq, Repr

/-- `RectangleIntersection<i32>` from `geometry.rs`: the classification of
how two rectangles relate, each constructor carrying either the overlap
rectangle or the gap rectangle. -/
inductive RectIntersection where
  | Real (r : Rect)
  | Horizontal (r : Rect)
  | Vertical (r : Rect)
  | None (r : Rect)
deriving DecidableEq, Repr

/-- `RectangleIntersection::distance` from `geometry.rs`: Manhattan gap
distance between the two rectangles (zero when they really intersect). -/
def RectIntersection.distance : RectIntersection → Int
  | .Real _ => 0
  | .Horizontal i => i.size.y
  | .Vertical i => i.size.x
  | .None i => i.size.x + i.size.y

/-- The `start_x` of `Rectangle::intersection`/`Rectangle::touching`
(`geometry.rs`): left edge of the shared x-range. -/
def Rect.startX (a b : Rect) : Int := max a.pos.x b.pos.x

/-- The `start_y` of `Rectangle::intersection`/`Rectangle::touching`. -/
def Rect.startY (a b : Rect) : Int := max a.pos.y b.pos.y

/-- The `end_x` of `Rectangle::intersection`/`Rectangle::touching`. -/
def Rect.endX (a b : Rect) : Int := min (a.pos.x + a.size.x) (b.pos.x + b.size.x)

/-- The `end_y` of `Rectangle::intersection`/`Rectangle::touching`. -/
def Rect.endY (a b : Rect) : Int := min (a.pos.y + a.size.y) (b.pos.y + b.size.y)

/-- `Rectangle::intersection` from `geometry.rs`. -/
def Rect.intersection (a b : Rect) : RectIntersection :=
  if a.startX b < a.endX b then
    if a.startY b < a.endY b then
      .Real ⟨⟨a.startX b, a.startY b⟩, ⟨a.endX b - a.startX b, a.endY b - a.startY b⟩⟩
    else
      .Horizontal ⟨⟨a.startX b, a.endY b⟩, ⟨a.endX b - a.startX b, a.startY b - a.endY b⟩⟩
  else
    if a.startY b < a.endY b then
      .Vertical ⟨⟨a.endX b, a.startY b⟩, ⟨a.startX b - a.endX b, a.endY b - a.startY b⟩⟩
    else
      .None ⟨⟨a.endX b, a.endY b⟩, ⟨a.startX b - a.endX b, a.startY b - a.endY b⟩⟩

/-- `Rectangle::touching` from `geometry.rs`: overlapping or adjacent
(sharing an edge or corner). -/
def Rect.touching (a b : Rect) : Bool :=
  decide (a.startX b ≤ a.endX b) && decide (a.startY b ≤ a.endY b)

/-- `Rectangle::area` from `geometry.rs`. -/
def Rect.area (a : Rect) : Int := a.size.x * a.size.y

/-- C7: for all integer rectangles `a` and `b` with non-negative sizes,
`(a.intersection b).distance` is non-negative, and it is zero exactly when
`a.touching b` holds. -/
theorem C7_gap_distance_nonneg_zero_iff_touching
    (a b : Rect)
    (ha : 0 ≤ a.size.x ∧ 0 ≤ a.size.y) (hb : 0 ≤ b.size.x ∧ 0 ≤ b.size.y) :
    0 ≤ (a.intersection b).distance ∧
      ((a.intersection b).distance = 0 ↔ a.touching b = true) := by
  clear ha hb
  unfold Rect.intersection Rect.touching
  split_ifs with h1 h2 h2 <;>
    simp only [RectIntersection.distance, Bool.and_eq_true, decide_eq_true_eq,
      eq_self_iff_true, true_iff, iff_true, le_refl, true_and, and_true] <;>
    unfold Rect.startX Rect.startY Rect.endX Rect.endY at * <;>
    omega

/-- Witness for C7 at concrete rectangles `((0,0),(2,2))` and `((2,2),(3,1))`
(corner-adjacent, so the gap distance is zero and they are touching). -/
theorem C7_gap_distance_witness :
    0 ≤ ((Rect.mk ⟨0, 0⟩ ⟨2, 2⟩).intersection (Rect.mk ⟨2, 2⟩ ⟨3, 1⟩)).distance ∧
      (((Rect.mk ⟨0, 0⟩ ⟨2, 2⟩).intersection (Rect.mk ⟨2, 2⟩ ⟨3, 1⟩)).distance = 0 ↔
        (Rect.mk ⟨0, 0⟩ ⟨2, 2⟩).touching (Rect.mk ⟨2, 2⟩ ⟨3, 1⟩) = true) :=
  C7_gap_distance_nonneg_zero_iff_touching _ _ ⟨by decide, by decide⟩ ⟨by decide, by decide⟩

/-! ## Sparse point maps

`HashMap<TilePoint, isize>` is modelled as an association list with at most
one entry per key.  Iteration order over the map is never used by the
embedded code, so the list order is irrelevant to every claim. -/

/-- Model of `HashMap<TilePoint, isize>`. -/
abbrev PMap := List (Pt × Int)

/-- `HashMap::get` (as used through `distances.get`). -/
def PMap.get (m : PMap) (p : Pt) : Option Int :=
  (m.find? (fun q => decide (q.1 = p))).map (·.2)

/-- `HashMap::insert` / `Entry::insert`: replace the value at an existing
key, or add a fresh entry. -/
def PMap.insert : PMap → Pt → Int → PMap
  | [], p, v => [(p, v)]
  | q :: t, p, v => if q.1 = p then (p, v) :: t else q :: PMap.insert t p v

theorem PMap.get_insert (m : PMap) (p : Pt) (v : Int) (k : Pt) :
    (m.insert p v).get k = if k = p then some v else m.get k := by
  induction m with
  | nil =>
    by_cases hk : k = p
    · simp [PMap.insert, PMap.get, List.find?, hk]
    · have hd : decide (p = k) = false := decide_eq_false (fun h => hk h.symm)
      simp [PMap.insert, PMap.get, List.find?, hk, hd]
  | cons q t ih =>
    by_cases hq : q.1 = p
    · by_cases hk : k = p
      · subst hk
        simp [PMap.insert, PMap.get, List.find?, hq]
      · have hqk : ¬(q.1 = k) := fun h => hk ((h.symm.trans hq).symm ▸ rfl)
        simp only [PMap.insert, if_pos hq, PMap.get, if_neg hk]
        rw [List.find?_cons_of_neg _ (by simpa using Ne.symm hk),
          List.find?_cons_of_neg _ (by simpa using hqk)]
    · by_cases hk : k = p
      · subst hk
        have hqk : ¬(q.1 = k) := hq
        simp only [PMap.insert, if_neg hq, PMap.get, if_pos rfl] at *
        rw [List.find?_cons_of_neg _ (by simpa using hqk)]
        have := ih
        simp only [PMap.get, if_pos rfl] at this
        exact this
      · by_cases hqk : q.1 = k
        · simp only [PMap.insert, if_neg hq, PMap.get, if_neg hk]
          rw [List.find?_cons_of_pos _ (by simpa using hqk),
            List.find?_cons_of_pos _ (by simpa using hqk)]
        · simp only [PMap.insert, if_neg hq, PMap.get]
          rw [List.find?_cons_of_neg _ (by simpa using hqk),
            List.find?_cons_of_neg _ (by simpa using hqk), if_neg hk]
          have := ih
          simp only [PMap.get, if_neg hk] at this
          exact this

theorem PMap.get_insert_self (m : PMap) (p : Pt) (v : Int) :
    (m.insert p v).get p = some v := by
  rw [PMap.get_insert, if_pos rfl]

theorem PMap.get_insert_ne (m : PMap) (p q : Pt) (v : Int) (hpq : q ≠ p) :
    (m.insert p v).get q = m.get q := by
  rw [PMap.get_insert, if_neg hpq]

/-- A `some` binding survives an insert at a currently vacant key. -/
theorem PMap.get_insert_mono (m : PMap) (p q : Pt) (v w : Int)
    (h : m.get q = some w) (hvac : m.get p = none) :
    (m.insert p v).get q = some w := by
  by_cases hq : q = p
  · subst hq; rw [h] at hvac; cases hvac
  · rw [PMap.get_insert_ne m p q v hq]; exact h

/-! ## Dijkstra maps (`dijkstra_map.rs`) -/

/-- Modelled from the spec: `NEIGHBOR_OFFSETS_FOUR` is referenced by
`dijkstra_map.rs` but its definition is not among the provided sources; per
the spec the map expands "through 4-directional neighbors", so it is the
four cardinal offsets.  No claim depends on the list's order. -/
def NEIGHBOR_OFFSETS_FOUR : List Vec := [⟨0, -1⟩, ⟨0, 1⟩, ⟨-1, 0⟩, ⟨1, 0⟩]

/-- The body of one BFS dequeue in `DijkstraMap::new`: expand the four
neighbors of `coords` (whose recorded distance is `distance`), skipping
blocked and already-visited tiles, recording `distance + 1` for the rest
and returning them as new queue entries (in push order). -/
def dijkstraExpand (isBlocking : Pt → Bool) (coords : Pt) (distance : Int)
    (st : PMap × List (Pt × Int)) (offset : Vec) : PMap × List (Pt × Int) :=
  let neighbor := coords.add offset
  if isBlocking neighbor then st
  else
    match st.1.get neighbor with
    | some _ => st
    | none =>
      (st.1.insert neighbor (distance + 1), st.2 ++ [(neighbor, distance + 1)])

/-- See `dijkstraExpand`: the full neighbor loop of one BFS dequeue. -/
def dijkstraStep (isBlocking : Pt → Bool) (dists : PMap) (coords : Pt)
    (distance : Int) : PMap × List (Pt × Int) :=
  NEIGHBOR_OFFSETS_FOUR.foldl (dijkstraExpand isBlocking coords distance) (dists, [])

/-- The goal-seeding pass of `DijkstraMap::new`: each tile satisfying
`is_goal` gets distance 0 and is pushed to the front of the queue (queue
front is the list head). -/
def dijkstraSeed (tiles : List Pt) (isGoal : Pt → Bool) :
    PMap × List (Pt × Int) :=
  tiles.foldl
    (fun st coords =>
      if isGoal coords then (st.1.insert coords 0, (coords, 0) :: st.2) else st)
    ([], [])

/-- The BFS work loop of `DijkstraMap::new`, with explicit fuel: `none`
means the fuel ran out (the Rust loop does not terminate for every
blocking predicate, so the embedding is fuelled). -/
def dijkstraLoop (isBlocking : Pt → Bool) :
    Nat → PMap → List (Pt × Int) → Option PMap
  | _, dists, [] => some dists
  | 0, _, _ :: _ => none
  | fuel + 1, dists, (coords, distance) :: rest =>
    let st := dijkstraStep isBlocking dists coords distance
    dijkstraLoop isBlocking fuel st.1 (rest ++ st.2)

/-- `DijkstraMap::new` from `dijkstra_map.rs` (fuelled). -/
def DijkstraMap.new (fuel : Nat) (tiles : List Pt) (isGoal isBlocking : Pt → Bool) :
    Option PMap :=
  dijkstraLoop isBlocking fuel (dijkstraSeed tiles isGoal).1 (dijkstraSeed tiles isGoal).2

/-- `DijkstraMap::distance` from `dijkstra_map.rs`. -/
def DijkstraMap.distance (m : PMap) (coords : Pt) : Option Int := m.get coords

/-- `isize::MAX`. -/
def isizeMAX : Int := 2 ^ 63 - 1

/-- `isize::MIN`. -/
def isizeMIN : Int := -(2 ^ 63)

/-- `DijkstraMap::step` from `dijkstra_map.rs`, up to but excluding the
final `best_offsets.into_iter().choose(rng)`: computes the `best_offsets`
candidate list.  `IteratorRandom::choose` returns `None` exactly when this
list is empty, and otherwise a uniformly random element of it, so every
claim about `step_towards`/`step_away` is a claim about this list. -/
def DijkstraMap.stepCandidates (m : PMap) (coords : Pt) (reverse : Bool) :
    List Vec :=
  (NEIGHBOR_OFFSETS_FOUR.foldl
    (fun (st : Int × List Vec) offset =>
      match m.get (coords.add offset) with
      | none => st
      | some distance =>
        if distance < st.1 then
          if !reverse then (distance, [offset]) else st
        else if distance = st.1 then
          (st.1, st.2 ++ [offset])
        else
          if reverse then (distance, [offset]) else st)
    ((DijkstraMap.distance m coords).getD (if reverse then isizeMIN else isizeMAX), [])).2

/-- C1 (code bug): on the Dijkstra map produced by `DijkstraMap::new` over
tiles `(0,0)` and `(1,0)` with both tiles goals (distance 0 each),
`step_towards` at `(0,0)` does not return `None` even though no neighbor
has a strictly smaller recorded distance than `(0,0)`'s own distance 0:
the `Ordering::Equal` arm of `DijkstraMap::step` pushes the
equal-distance neighbor `(1,0)` onto `best_offsets`, so `choose` returns
`Some(offset (1,0))` — contradicting both the claim and the method's own
doc comment ("a random neighbor ... that is one tile closer"). -/
theorem C1_step_towards_returns_equal_distance_neighbor :
    DijkstraMap.new 10 [⟨0, 0⟩, ⟨1, 0⟩] (fun _ => true)
        (fun p => !(decide (p = ⟨0, 0⟩) || decide (p = ⟨1, 0⟩)))
      = some [(⟨0, 0⟩, 0), (⟨1, 0⟩, 0)] ∧
    DijkstraMap.distance [(⟨0, 0⟩, 0), (⟨1, 0⟩, 0)] ⟨0, 0⟩ = some 0 ∧
    (∀ v ∈ NEIGHBOR_OFFSETS_FOUR,
      ∀ d, DijkstraMap.distance [(⟨0, 0⟩, 0), (⟨1, 0⟩, 0)] (Pt.add ⟨0, 0⟩ v) = some d →
        ¬d < 0) ∧
    DijkstraMap.stepCandidates [(⟨0, 0⟩, 0), (⟨1, 0⟩, 0)] ⟨0, 0⟩ false = [⟨1, 0⟩] := by
  refine ⟨by decide, by decide, ?_, by decide⟩
  decide

/-- The C6 invariant: every recorded positive distance has a 4-neighbor
recorded exactly one closer. -/
def dijkstraInv (m : PMap) : Prop :=
  ∀ t d, m.get t = some d → 0 < d →
    ∃ v ∈ NEIGHBOR_OFFSETS_FOUR, m.get (t.add v) = some (d - 1)

/-- Each cardinal offset has an inverse cardinal offset. -/
theorem neighbor_offsets_four_inv :
    ∀ v ∈ NEIGHBOR_OFFSETS_FOUR, ∃ w ∈ NEIGHBOR_OFFSETS_FOUR,
      ∀ p : Pt, (p.add v).add w = p := by
  intro v hv
  fin_cases hv
  · exact ⟨⟨0, 1⟩, by decide, fun p => by simp [Pt.add]⟩
  · exact ⟨⟨0, -1⟩, by decide, fun p => by simp [Pt.add]⟩
  · exact ⟨⟨1, 0⟩, by decide, fun p => by simp [Pt.add]⟩
  · exact ⟨⟨-1, 0⟩, by decide, fun p => by simp [Pt.add]⟩

/-- Each neighbor-expansion step either leaves the state unchanged or
records the neighbor at a vacant key and pushes it. -/
theorem dijkstraExpand_eq (b : Pt → Bool) (c : Pt) (d : Int)
    (st : PMap × List (Pt × Int)) (off : Vec) :
    dijkstraExpand b c d st off = st ∨
    (st.1.get (c.add off) = none ∧
      dijkstraExpand b c d st off =
        (st.1.insert (c.add off) (d + 1), st.2 ++ [(c.add off, d + 1)])) := by
  unfold dijkstraExpand
  dsimp only
  split_ifs with hb
  · exact Or.inl rfl
  · cases hg : st.1.get (c.add off) with
    | some w => exact Or.inl rfl
    | none => exact Or.inr ⟨rfl, rfl⟩

/-- Expanding neighbors only adds bindings (inserts happen at vacant keys). -/
theorem dijkstraExpand_fold_mono (b : Pt → Bool) (c : Pt) (d : Int)
    (L : List Vec) :
    ∀ (st : PMap × List (Pt × Int)) (p : Pt) (v : Int),
      st.1.get p = some v →
      (L.foldl (dijkstraExpand b c d) st).1.get p = some v := by
  induction L with
  | nil => intro st p v h; exact h
  | cons off t ih =>
    intro st p v h
    rw [List.foldl_cons]
    rcases dijkstraExpand_eq b c d st off with heq | ⟨hg, heq⟩
    · rw [heq]; exact ih st p v h
    · rw [heq]; exact ih _ p v (PMap.get_insert_mono st.1 _ p _ v h hg)

/-- The neighbor-expansion fold preserves the C6 invariant and produces
queue entries recorded in the resulting map. -/
theorem dijkstraExpand_fold_spec (b : Pt → Bool) (c : Pt) (d : Int)
    (L : List Vec) (hL : ∀ v ∈ L, v ∈ NEIGHBOR_OFFSETS_FOUR) :
    ∀ (st : PMap × List (Pt × Int)),
      st.1.get c = some d →
      dijkstraInv st.1 →
      (∀ q ∈ st.2, st.1.get q.1 = some q.2) →
      dijkstraInv (L.foldl (dijkstraExpand b c d) st).1 ∧
        (∀ q ∈ (L.foldl (dijkstraExpand b c d) st).2,
          (L.foldl (dijkstraExpand b c d) st).1.get q.1 = some q.2) := by
  induction L with
  | nil => intro st _ hinv hq; exact ⟨hinv, hq⟩
  | cons off t ih =>
    intro st hc hinv hq
    rw [List.foldl_cons]
    have hofft : ∀ v ∈ t, v ∈ NEIGHBOR_OFFSETS_FOUR := fun v hv => hL v (List.mem_cons_of_mem _ hv)
    have hoff : off ∈ NEIGHBOR_OFFSETS_FOUR := hL off (List.mem_cons_self _ _)
    rcases dijkstraExpand_eq b c d st off with heq | ⟨hg, heq⟩
    · rw [heq]; exact ih hofft st hc hinv hq
    · rw [heq]
      set nb := c.add off with hnb
      refine ih hofft _ ?_ ?_ ?_
      · exact PMap.get_insert_mono st.1 nb c _ d hc hg
      · intro u e hu he
        rw [PMap.get_insert] at hu
        by_cases hun : u = nb
        · rw [if_pos hun] at hu
          obtain ⟨w, hw, hwp⟩ := neighbor_offsets_four_inv off hoff
          refine ⟨w, hw, ?_⟩
          have hue : e = d + 1 := by injection hu with h; omega
          have huw : u.add w = c := by rw [hun, hnb]; exact hwp c
          rw [huw, hue]
          have hd1 : d + 1 - 1 = d := by omega
          rw [hd1]
          exact PMap.get_insert_mono st.1 nb c _ d hc hg
        · rw [if_neg hun] at hu
          obtain ⟨w, hw, hwp⟩ := hinv u e hu he
          exact ⟨w, hw, PMap.get_insert_mono st.1 nb _ _ _ hwp hg⟩
      · intro q hqm
        rcases List.mem_append.mp hqm with h1 | h2
        · exact PMap.get_insert_mono st.1 nb _ _ _ (hq q h1) hg
        · have hq2 : q = (nb, d + 1) := by simpa using h2
          rw [hq2]
          exact PMap.get_insert_self st.1 nb (d + 1)

/-- The BFS loop preserves the C6 invariant. -/
theorem dijkstraLoop_inv (b : Pt → Bool) :
    ∀ (fuel : Nat) (dists : PMap) (queue : List (Pt × Int)) (m : PMap),
      dijkstraLoop b fuel dists queue = some m →
      dijkstraInv dists →
      (∀ q ∈ queue, dists.get q.1 = some q.2) →
      dijkstraInv m := by
  intro fuel
  induction fuel with
  | zero =>
    intro dists queue m h hinv hq
    cases queue with
    | nil => simp only [dijkstraLoop, Option.some.injEq] at h; exact h ▸ hinv
    | cons q rest => simp [dijkstraLoop] at h
  | succ f ih =>
    intro dists queue m h hinv hq
    cases queue with
    | nil => simp only [dijkstraLoop, Option.some.injEq] at h; exact h ▸ hinv
    | cons q rest =>
      obtain ⟨c, d⟩ := q
      simp only [dijkstraLoop] at h
      have hc : dists.get c = some d := hq (c, d) (List.mem_cons_self _ _)
      have spec := dijkstraExpand_fold_spec b c d NEIGHBOR_OFFSETS_FOUR
        (fun v hv => hv) (dists, []) hc hinv (by intro q hql; cases hql)
      refine ih _ _ m h spec.1 ?_
      intro q hql
      rcases List.mem_append.mp hql with h1 | h2
      · exact dijkstraExpand_fold_mono b c d NEIGHBOR_OFFSETS_FOUR (dists, []) _ _
          (hq q (List.mem_cons_of_mem _ h1))
      · exact spec.2 q h2

/-- The BFS loop preserves existing bindings. -/
theorem dijkstraLoop_mono (b : Pt → Bool) :
    ∀ (fuel : Nat) (dists : PMap) (queue : List (Pt × Int)) (m : PMap)
      (p : Pt) (v : Int),
      dijkstraLoop b fuel dists queue = some m →
      dists.get p = some v →
      m.get p = some v := by
  intro fuel
  induction fuel with
  | zero =>
    intro dists queue m p v h hp
    cases queue with
    | nil => simp only [dijkstraLoop, Option.some.injEq] at h; exact h ▸ hp
    | cons q rest => simp [dijkstraLoop] at h
  | succ f ih =>
    intro dists queue m p v h hp
    cases queue with
    | nil => simp only [dijkstraLoop, Option.some.injEq] at h; exact h ▸ hp
    | cons q rest =>
      obtain ⟨c, d⟩ := q
      simp only [dijkstraLoop] at h
      exact ih _ _ m p v h
        (dijkstraExpand_fold_mono b c d NEIGHBOR_OFFSETS_FOUR (dists, []) p v hp)

/-- Seeding produces only zero distances, and a queue recorded in the map. -/
theorem dijkstraSeed_fold_spec (isGoal : Pt → Bool) (L : List Pt) :
    ∀ (st : PMap × List (Pt × Int)),
      (∀ p d, st.1.get p = some d → d = 0) →
      (∀ q ∈ st.2, st.1.get q.1 = some q.2) →
      (∀ p d, (L.foldl (fun st coords =>
          if isGoal coords then (st.1.insert coords 0, (coords, 0) :: st.2) else st)
          st).1.get p = some d → d = 0) ∧
      (∀ q ∈ (L.foldl (fun st coords =>
          if isGoal coords then (st.1.insert coords 0, (coords, 0) :: st.2) else st)
          st).2,
        (L.foldl (fun st coords =>
          if isGoal coords then (st.1.insert coords 0, (coords, 0) :: st.2) else st)
          st).1.get q.1 = some q.2) := by
  induction L with
  | nil => intro st h0 hq; exact ⟨h0, hq⟩
  | cons c t ih =>
    intro st h0 hq
    rw [List.foldl_cons]
    by_cases hg : isGoal c
    · rw [if_pos hg]
      refine ih _ ?_ ?_
      · intro p d hp
        rw [PMap.get_insert] at hp
        by_cases hpc : p = c
        · rw [if_pos hpc] at hp; injection hp with h; omega
        · rw [if_neg hpc] at hp; exact h0 p d hp
      · intro q hql
        rcases List.mem_cons.mp hql with h1 | h2
        · rw [h1]; exact PMap.get_insert_self st.1 c 0
        · rw [PMap.get_insert]
          by_cases hqc : q.1 = c
          · rw [if_pos hqc]
            have := h0 q.1 q.2 (hq q h2)
            rw [this]
          · rw [if_neg hqc]; exact hq q h2
    · rw [if_neg hg]; exact ih st h0 hq

/-- Seeding records distance 0 for every goal in the tile list, and later
seed inserts (always with value 0) preserve that. -/
theorem dijkstraSeed_fold_goal (isGoal : Pt → Bool) (g : Pt) :
    ∀ (L : List Pt) (st : PMap × List (Pt × Int)),
      (g ∈ L ∧ isGoal g = true) ∨ st.1.get g = some 0 →
      (L.foldl (fun st coords =>
        if isGoal coords then (st.1.insert coords 0, (coords, 0) :: st.2) else st)
        st).1.get g = some 0 := by
  intro L
  induction L with
  | nil =>
    intro st h
    rcases h with ⟨hmem, _⟩ | h0
    · cases hmem
    · exact h0
  | cons c t ih =>
    intro st h
    rw [List.foldl_cons]
    rcases h with ⟨hmem, hgoal⟩ | h0
    · rcases List.mem_cons.mp hmem with h1 | h2
      · subst h1
        rw [if_pos hgoal]
        exact ih _ (Or.inr (PMap.get_insert_self st.1 g 0))
      · by_cases hg : isGoal c
        · rw [if_pos hg]; exact ih _ (Or.inl ⟨h2, hgoal⟩)
        · rw [if_neg hg]; exact ih _ (Or.inl ⟨h2, hgoal⟩)
    · by_cases hg : isGoal c
      · rw [if_pos hg]
        refine ih _ (Or.inr ?_)
        rw [PMap.get_insert]
        by_cases hgc : g = c
        · rw [if_pos hgc]
        · rw [if_neg hgc]; exact h0
      · rw [if_neg hg]; exact ih _ (Or.inr h0)

/-- C6: in every map produced by `DijkstraMap::new`, every tile with a
finite recorded distance `d > 0` has a 4-directional neighbor with
recorded distance `d - 1`. -/
theorem C6_dijkstra_monotone_parent (fuel : Nat) (tiles : List Pt)
    (isGoal isBlocking : Pt → Bool) (m : PMap)
    (h : DijkstraMap.new fuel tiles isGoal isBlocking = some m)
    (t : Pt) (d : Int) (ht : DijkstraMap.distance m t = some d) (hd : 0 < d) :
    ∃ v ∈ NEIGHBOR_OFFSETS_FOUR, DijkstraMap.distance m (t.add v) = some (d - 1) := by
  unfold DijkstraMap.new at h
  have hseed := dijkstraSeed_fold_spec isGoal tiles ([], [])
    (by intro p d hp; cases hp) (by intro q hq; cases hq)
  have hinv0 : dijkstraInv (dijkstraSeed tiles isGoal).1 := by
    intro u e hu he
    have := hseed.1 u e hu
    omega
  exact dijkstraLoop_inv isBlocking fuel _ _ m h hinv0 hseed.2 t d ht hd

/-- Witness for C6: tiles `(0,0)` (the goal) and `(1,0)`, everything else
blocked; tile `(1,0)` has distance 1 and its neighbor `(0,0)` distance 0. -/
theorem C6_dijkstra_monotone_parent_witness :
    ∃ v ∈ NEIGHBOR_OFFSETS_FOUR,
      DijkstraMap.distance [(⟨0, 0⟩, 0), (⟨1, 0⟩, 1)] (Pt.add ⟨1, 0⟩ v) = some (1 - 1) :=
  C6_dijkstra_monotone_parent 10 [⟨0, 0⟩, ⟨1, 0⟩]
    (fun p => decide (p = ⟨0, 0⟩))
    (fun p => !(decide (p = ⟨0, 0⟩) || decide (p = ⟨1, 0⟩)))
    [(⟨0, 0⟩, 0), (⟨1, 0⟩, 1)] (by decide) ⟨1, 0⟩ 1 (by decide) (by decide)

/-- C9: goal seeding ignores the blocking predicate — every tile of the
iterator satisfying `is_goal` ends with recorded distance 0, whatever
`is_blocking` says (the theorem holds for every `isBlocking`, including
ones blocking the goal itself). -/
theorem C9_goal_seeding_ignores_blocking (fuel : Nat) (tiles : List Pt)
    (isGoal isBlocking : Pt → Bool) (m : PMap)
    (h : DijkstraMap.new fuel tiles isGoal isBlocking = some m)
    (g : Pt) (hg : g ∈ tiles) (hgoal : isGoal g = true) :
    DijkstraMap.distance m g = some 0 := by
  unfold DijkstraMap.new at h
  exact dijkstraLoop_mono isBlocking fuel _ _ m g 0 h
    (dijkstraSeed_fold_goal isGoal g tiles ([], []) (Or.inl ⟨hg, hgoal⟩))

/-- Witness for C9: a single goal tile that is itself blocking still gets
distance 0. -/
theorem C9_goal_seeding_ignores_blocking_witness :
    DijkstraMap.distance [(⟨5, 5⟩, 0)] ⟨5, 5⟩ = some 0 :=
  C9_goal_seeding_ignores_blocking 2 [⟨5, 5⟩] (fun _ => true) (fun _ => true)
    [(⟨5, 5⟩, 0)] (by decide) ⟨5, 5⟩ (by decide) rfl

/-! ## Disjoint sets (`disjoint_sets.rs`)

`Node` carries a parent index and a cached subtree size; the recursive
`find` with path compression is modelled with explicit fuel
(`nodes.len()` suffices on every state reachable through the public API,
as proved below), and the out-of-range panic is modelled as `none`. -/

/-- `Node` from `disjoint_sets.rs`. -/
structure DSNode where
  parent : Nat
  size : Nat
deriving DecidableEq, Repr

/-- `DisjointSets` from `disjoint_sets.rs`. -/
structure DisjointSets where
  nodes : List DSNode
deriving DecidableEq, Repr

/-- In-place update of one list element (identity when out of range),
modelling `self.nodes[i] = ...` field assignments. -/
def modifyNth (f : DSNode → DSNode) : List DSNode → Nat → List DSNode
  | [], _ => []
  | nd :: t, 0 => f nd :: t
  | nd :: t, n + 1 => nd :: modifyNth f t n

theorem length_modifyNth (f : DSNode → DSNode) :
    ∀ (l : List DSNode) (i : Nat), (modifyNth f l i).length = l.length := by
  intro l
  induction l with
  | nil => intro i; rfl
  | cons nd t ih =>
    intro i
    cases i with
    | zero => rfl
    | succ n => simp [modifyNth, ih]

theorem get?_modifyNth (f : DSNode → DSNode) :
    ∀ (l : List DSNode) (i j : Nat),
      (modifyNth f l i).get? j = if j = i then (l.get? j).map f else l.get? j := by
  intro l
  induction l with
  | nil =>
    intro i j
    simp [modifyNth]
  | cons nd t ih =>
    intro i j
    cases i with
    | zero =>
      cases j with
      | zero => simp [modifyNth]
      | succ m => simp [modifyNth]
    | succ n =>
      cases j with
      | zero => simp [modifyNth]
      | succ m =>
        simp only [modifyNth, List.get?_cons_succ]
        rw [ih n m]
        by_cases h : m = n
        · simp [h]
        · have h2 : ¬(m + 1 = n + 1) := fun hc => h (Nat.succ_injective hc)
          simp [h, h2]

/-- `DisjointSets::new`. -/
def DisjointSets.new (len : Nat) : DisjointSets :=
  ⟨(List.range len).map (fun i => ⟨i, 1⟩)⟩

/-- The parent function of a state: `nodes[i].parent`, with the totalizing
convention that out-of-range indices are their own parent (the Rust code
panics there; all verified paths stay in range). -/
def DisjointSets.pf (s : DisjointSets) (i : Nat) : Nat :=
  match s.nodes.get? i with
  | some nd => nd.parent
  | none => i

/-- The cached size at index `i` (`nodes[i].size`), 0 out of range. -/
def DisjointSets.sz (s : DisjointSets) (i : Nat) : Nat :=
  match s.nodes.get? i with
  | some nd => nd.size
  | none => 0

/-- Pure chase-to-root with fuel over a parent function. -/
def rootF (f : Nat → Nat) : Nat → Nat → Nat
  | 0, i => i
  | fuel + 1, i => if f i = i then i else rootF f fuel (f i)

/-- The representative of `i`'s set: chase parent links with fuel
`nodes.len()` (sufficient on reachable states, as proved below). -/
def DisjointSets.rootOf (s : DisjointSets) (i : Nat) : Nat :=
  rootF s.pf s.nodes.length i

/-- `DisjointSets::find` from `disjoint_sets.rs`, with fuel: looks up
`nodes[i].parent` (out of range models the Rust panic as `none`), returns
`i` if self-parented, otherwise recurses on the parent and then repoints
`nodes[i].parent` to the returned root (path compression). -/
def DisjointSets.findAux : Nat → DisjointSets → Nat → Option (DisjointSets × Nat)
  | 0, _, _ => none
  | fuel + 1, s, i =>
    match s.nodes.get? i with
    | none => none
    | some nd =>
      if nd.parent = i then some (s, i)
      else
        match DisjointSets.findAux fuel s nd.parent with
        | none => none
        | some (s1, r) =>
          some (⟨modifyNth (fun nd => ⟨r, nd.size⟩) s1.nodes i⟩, r)

/-- `DisjointSets::find` entry point (fuel `nodes.len()`). -/
def DisjointSets.find (s : DisjointSets) (i : Nat) : Option (DisjointSets × Nat) :=
  DisjointSets.findAux s.nodes.length s i

/-- `self.nodes[j].parent = i` in `DisjointSets::merge` (with post-swap
names: `b`'s parent is set to `a`). -/
def DisjointSets.linkRoots (s : DisjointSets) (a b : Nat) : DisjointSets :=
  ⟨modifyNth (fun nd => ⟨a, nd.size⟩) s.nodes b⟩

/-- `self.nodes[i].size += self.nodes[j].size` in `DisjointSets::merge`. -/
def DisjointSets.bumpSize (s : DisjointSets) (a b : Nat) : DisjointSets :=
  ⟨modifyNth (fun nd => ⟨nd.parent, s.sz a + s.sz b⟩) s.nodes a⟩

/-- `DisjointSets::merge` from `disjoint_sets.rs`: find both roots; if they
differ, swap so the kept root has no fewer descendants (union-by-size),
re-parent the smaller root under the larger, add the smaller set's size
into the larger root's, and return the size stored at the kept root. -/
def DisjointSets.merge (s : DisjointSets) (i j : Nat) : Option (DisjointSets × Nat) :=
  match s.find i with
  | none => none
  | some (s1, ri) =>
    match s1.find j with
    | none => none
    | some (s2, rj) =>
      if ri = rj then some (s2, s2.sz ri)
      else
        if s2.sz ri < s2.sz rj then
          some ((s2.linkRoots rj ri).bumpSize rj ri,
            ((s2.linkRoots rj ri).bumpSize rj ri).sz rj)
        else
          some ((s2.linkRoots ri rj).bumpSize ri rj,
            ((s2.linkRoots ri rj).bumpSize ri rj).sz ri)

/-- States reachable from `new n` by `find`/`merge` calls with in-range
arguments. -/
inductive DSReachable (n : Nat) : DisjointSets → Prop where
  | base : DSReachable n (DisjointSets.new n)
  | find_step (s : DisjointSets) (i : Nat) (s' : DisjointSets) (r : Nat) :
      DSReachable n s → i < n → s.find i = some (s', r) → DSReachable n s'
  | merge_step (s : DisjointSets) (i j : Nat) (s' : DisjointSets) (k : Nat) :
      DSReachable n s → i < n → j < n → s.merge i j = some (s', k) →
      DSReachable n s'

theorem rootF_of_isRoot (f : Nat → Nat) (fuel i : Nat) (h : f i = i) :
    rootF f fuel i = i := by
  cases fuel with
  | zero => rfl
  | succ m => simp [rootF, h]

theorem rootF_congr (f g : Nat → Nat) (hfg : ∀ x, f x = g x) :
    ∀ (fuel i : Nat), rootF f fuel i = rootF g fuel i := by
  intro fuel
  induction fuel with
  | zero => intro i; rfl
  | succ m ih =>
    intro i
    simp only [rootF, hfg i]
    by_cases h : g i = i
    · rw [if_pos h, if_pos h]
    · rw [if_neg h, if_neg h, ih (g i)]

theorem iterate_fix (f : Nat → Nat) (r : Nat) (h : f r = r) :
    ∀ m, f^[m] r = r := by
  intro m
  induction m with
  | zero => rfl
  | succ k ih => rw [Function.iterate_succ_apply', ih, h]

theorem root_unique (f : Nat → Nat) (i r1 r2 a b : Nat)
    (h1 : f^[a] i = r1) (hr1 : f r1 = r1) (h2 : f^[b] i = r2) (hr2 : f r2 = r2) :
    r1 = r2 := by
  rcases Nat.le_total a b with h | h
  · have hb : b = (b - a) + a := by omega
    rw [hb, Function.iterate_add_apply, h1, iterate_fix f r1 hr1] at h2
    exact h2
  · have ha : a = (a - b) + b := by omega
    rw [ha, Function.iterate_add_apply, h2, iterate_fix f r2 hr2] at h1
    exact h1.symm

theorem rootF_spec (f : Nat → Nat) :
    ∀ (fuel k i : Nat), k ≤ fuel → f (f^[k] i) = f^[k] i →
      f (rootF f fuel i) = rootF f fuel i ∧ ∃ m, rootF f fuel i = f^[m] i := by
  intro fuel
  induction fuel with
  | zero =>
    intro k i hk hroot
    have hk0 : k = 0 := by omega
    subst hk0
    simp only [Function.iterate_zero_apply] at hroot
    exact ⟨by simpa [rootF] using hroot, 0, rfl⟩
  | succ m ih =>
    intro k i hk hroot
    by_cases h : f i = i
    · rw [rootF_of_isRoot f _ i h]
      exact ⟨h, 0, rfl⟩
    · have hk0 : k ≠ 0 := by
        intro h0
        subst h0
        simp only [Function.iterate_zero_apply] at hroot
        exact h hroot
      have hit : f^[k] i = f^[k - 1] (f i) := by
        have hke : k = (k - 1) + 1 := by omega
        conv_lhs => rw [hke]
        rw [Function.iterate_succ_apply]
      rw [hit] at hroot
      obtain ⟨hr, m', hm'⟩ := ih (k - 1) (f i) (by omega) hroot
      have hun : rootF f (m + 1) i = rootF f m (f i) := by
        simp only [rootF, if_neg h]
      rw [hun]
      exact ⟨hr, m' + 1, by rw [hm', Function.iterate_succ_apply]⟩

theorem iterate_mem (f : Nat → Nat) (n : Nat) (hb : ∀ x, x < n → f x < n)
    (i : Nat) (hi : i < n) : ∀ m, f^[m] i < n := by
  intro m
  induction m with
  | zero => simpa using hi
  | succ p ihp => rw [Function.iterate_succ_apply']; exact hb _ ihp

theorem depth_lt_n (f : Nat → Nat) (n : Nat) (hb : ∀ x, x < n → f x < n)
    (i : Nat) (hi : i < n) (k : Nat) (hroot : f (f^[k] i) = f^[k] i)
    (hmin : ∀ m, m < k → f (f^[m] i) ≠ f^[m] i) : k < n := by
  by_contra hkn
  push_neg at hkn
  have hinj : ∀ a b, a < b → b ≤ k → f^[a] i ≠ f^[b] i := by
    intro a b hab hbk heq
    have h1 : f^[a + (k - b)] i = f^[k] i := by
      rw [Nat.add_comm, Function.iterate_add_apply, heq, ← Function.iterate_add_apply]
      congr 1
      omega
    exact hmin (a + (k - b)) (by omega) (by rw [h1]; exact hroot)
  have htri : ∀ a b, a ≤ k → b ≤ k → f^[a] i = f^[b] i → a = b := by
    intro a b ha hb' heq
    rcases Nat.lt_trichotomy a b with h | h | h
    · exact absurd heq (hinj a b h hb')
    · exact h
    · exact absurd heq.symm (hinj b a h ha)
  have hcard : (Finset.range (k + 1)).card ≤ (Finset.range n).card := by
    apply Finset.card_le_card_of_injOn (fun m => f^[m] i)
    · intro a _
      simp only [Finset.mem_range]
      exact iterate_mem f n hb i hi a
    · intro a ha b hb' heq
      simp only [Finset.mem_coe, Finset.mem_range] at ha hb'
      exact htri a b (by omega) (by omega) heq
  simp only [Finset.card_range] at hcard
  omega

/-- Out-of-range indices are their own parent. -/
theorem DisjointSets.pf_out (s : DisjointSets) (i : Nat)
    (h : s.nodes.length ≤ i) : s.pf i = i := by
  unfold DisjointSets.pf
  rw [List.get?_eq_none.mpr h]

/-- The representative is a root, and is reached from `i` by iterating the
parent function — within fewer than `n` steps for in-range `i`. -/
theorem DisjointSets.rootOf_spec (s : DisjointSets) (n : Nat)
    (hlen : s.nodes.length = n)
    (hb : ∀ x, x < n → s.pf x < n)
    (hre : ∀ x, ∃ k, s.pf (s.pf^[k] x) = s.pf^[k] x) (i : Nat) :
    s.pf (s.rootOf i) = s.rootOf i ∧
      ∃ m, s.pf^[m] i = s.rootOf i ∧ (i < n → m < n) := by
  by_cases hi : i < n
  · have hdec : ∀ k, Decidable (s.pf (s.pf^[k] i) = s.pf^[k] i) := fun k => Nat.decEq _ _
    have hex := hre i
    let k0 := Nat.find hex
    have hk0 : s.pf (s.pf^[k0] i) = s.pf^[k0] i := Nat.find_spec hex
    have hmin : ∀ m, m < k0 → s.pf (s.pf^[m] i) ≠ s.pf^[m] i := fun m hm => Nat.find_min hex hm
    have hk0n : k0 < n := depth_lt_n s.pf n hb i hi k0 hk0 hmin
    have hspec := rootF_spec s.pf n k0 i (by omega) hk0
    unfold DisjointSets.rootOf
    rw [hlen]
    obtain ⟨hr, m', hm'⟩ := hspec
    refine ⟨hr, k0, ?_, fun _ => hk0n⟩
    exact (root_unique s.pf i _ _ m' k0 hm'.symm (by rw [hm'] at hr; exact hm' ▸ hr) rfl hk0).symm
  · have hroot : s.pf i = i := s.pf_out i (by omega)
    unfold DisjointSets.rootOf
    rw [rootF_of_isRoot s.pf _ i hroot]
    exact ⟨hroot, 0, rfl, fun h => absurd h hi⟩

/-- A self-parented node is its own representative. -/
theorem DisjointSets.rootOf_root (s : DisjointSets) (i : Nat)
    (h : s.pf i = i) : s.rootOf i = i :=
  rootF_of_isRoot s.pf _ i h

/-- Any node reaching a root by iteration has that root as its
representative. -/
theorem DisjointSets.rootOf_eq (s : DisjointSets) (n : Nat)
    (hlen : s.nodes.length = n)
    (hb : ∀ x, x < n → s.pf x < n)
    (hre : ∀ x, ∃ k, s.pf (s.pf^[k] x) = s.pf^[k] x)
    (i k z : Nat) (hk : s.pf^[k] i = z) (hz : s.pf z = z) :
    s.rootOf i = z := by
  obtain ⟨hr, m, hm, _⟩ := s.rootOf_spec n hlen hb hre i
  exact root_unique s.pf i _ _ m k hm hr hk hz

/-- The representative of `i` equals the representative of `i`'s parent. -/
theorem DisjointSets.rootOf_pf (s : DisjointSets) (n : Nat)
    (hlen : s.nodes.length = n)
    (hb : ∀ x, x < n → s.pf x < n)
    (hre : ∀ x, ∃ k, s.pf (s.pf^[k] x) = s.pf^[k] x) (i : Nat) :
    s.rootOf i = s.rootOf (s.pf i) := by
  obtain ⟨hr, m, hm, _⟩ := s.rootOf_spec n hlen hb hre (s.pf i)
  refine s.rootOf_eq n hlen hb hre i (m + 1) _ ?_ hr
  rw [Function.iterate_succ_apply, hm]

/-- In-range representatives are in range. -/
theorem DisjointSets.rootOf_lt (s : DisjointSets) (n : Nat)
    (hlen : s.nodes.length = n)
    (hb : ∀ x, x < n → s.pf x < n)
    (hre : ∀ x, ∃ k, s.pf (s.pf^[k] x) = s.pf^[k] x)
    (i : Nat) (hi : i < n) : s.rootOf i < n := by
  obtain ⟨_, m, hm, _⟩ := s.rootOf_spec n hlen hb hre i
  rw [← hm]
  exact iterate_mem s.pf n hb i hi m

theorem DisjointSets.pf_modify_parent (s : DisjointSets) (i p : Nat)
    (hi : i < s.nodes.length) (x : Nat) :
    (DisjointSets.mk (modifyNth (fun nd => ⟨p, nd.size⟩) s.nodes i)).pf x =
      if x = i then p else s.pf x := by
  unfold DisjointSets.pf
  simp only [get?_modifyNth]
  by_cases hx : x = i
  · subst hx
    rw [if_pos rfl, if_pos rfl, List.get?_eq_get hi]
    rfl
  · rw [if_neg hx, if_neg hx]

theorem DisjointSets.sz_modify_parent (s : DisjointSets) (i p : Nat) (x : Nat) :
    (DisjointSets.mk (modifyNth (fun nd => ⟨p, nd.size⟩) s.nodes i)).sz x = s.sz x := by
  unfold DisjointSets.sz
  simp only [get?_modifyNth]
  by_cases hx : x = i
  · subst hx
    rw [if_pos rfl]
    cases s.nodes.get? x <;> rfl
  · rw [if_neg hx]

theorem DisjointSets.pf_modify_size (s : DisjointSets) (i v : Nat) (x : Nat) :
    (DisjointSets.mk (modifyNth (fun nd => ⟨nd.parent, v⟩) s.nodes i)).pf x = s.pf x := by
  unfold DisjointSets.pf
  simp only [get?_modifyNth]
  by_cases hx : x = i
  · subst hx
    rw [if_pos rfl]
    cases s.nodes.get? x <;> rfl
  · rw [if_neg hx]

theorem DisjointSets.sz_modify_size (s : DisjointSets) (i v : Nat)
    (hi : i < s.nodes.length) (x : Nat) :
    (DisjointSets.mk (modifyNth (fun nd => ⟨nd.parent, v⟩) s.nodes i)).sz x =
      if x = i then v else s.sz x := by
  unfold DisjointSets.sz
  simp only [get?_modifyNth]
  by_cases hx : x = i
  · subst hx
    rw [if_pos rfl, if_pos rfl, List.get?_eq_get hi]
    rfl
  · rw [if_neg hx, if_neg hx]

/-- `find` (when it succeeds) returns the representative, keeps length and
all cached sizes, and only re-parents nodes directly to their own root. -/
theorem DisjointSets.findAux_spec (n : Nat) :
    ∀ (fuel : Nat) (s : DisjointSets) (i : Nat) (s' : DisjointSets) (r : Nat),
      s.nodes.length = n →
      (∀ x, x < n → s.pf x < n) →
      (∀ x, ∃ k, s.pf (s.pf^[k] x) = s.pf^[k] x) →
      DisjointSets.findAux fuel s i = some (s', r) →
      r = s.rootOf i ∧ s'.nodes.length = n ∧ (∀ x, s'.sz x = s.sz x) ∧
        (∀ x, s'.pf x = s.pf x ∨ s'.pf x = s.rootOf x) := by
  intro fuel
  induction fuel with
  | zero =>
    intro s i s' r _ _ _ h
    cases h
  | succ m ih =>
    intro s i s' r hlen hb hre h
    unfold DisjointSets.findAux at h
    cases hget : s.nodes.get? i with
    | none => rw [hget] at h; cases h
    | some nd =>
      simp only [hget] at h
      have hpfi : s.pf i = nd.parent := by unfold DisjointSets.pf; rw [hget]
      by_cases hp : nd.parent = i
      · rw [if_pos hp] at h
        injection h with h1
        injection h1 with hs hr
        subst hs
        subst hr
        have hroot : s.pf i = i := by rw [hpfi, hp]
        exact ⟨(s.rootOf_root i hroot).symm, hlen, fun x => rfl, fun x => Or.inl rfl⟩
      · rw [if_neg hp] at h
        cases hrec : DisjointSets.findAux m s nd.parent with
        | none => rw [hrec] at h; cases h
        | some pr =>
          obtain ⟨s1, r1⟩ := pr
          simp only [hrec] at h
          injection h with h1
          injection h1 with hs hr
          subst hr
          obtain ⟨hr1, hlen1, hsz1, hpf1⟩ := ih s nd.parent s1 r1 hlen hb hre hrec
          have hin : i < n := by
            have := (List.get?_eq_some.mp hget).1
            omega
          have hroot_eq : s.rootOf nd.parent = s.rootOf i := by
            rw [← hpfi]
            exact (s.rootOf_pf n hlen hb hre i).symm
          have hi1 : i < s1.nodes.length := by omega
          refine ⟨by rw [hr1, hroot_eq], ?_, ?_, ?_⟩
          · rw [← hs]
            simpa [length_modifyNth] using hlen1
          · intro x
            rw [← hs]
            rw [DisjointSets.sz_modify_parent s1 i r1 x]
            exact hsz1 x
          · intro x
            rw [← hs]
            rw [DisjointSets.pf_modify_parent s1 i r1 hi1 x]
            by_cases hx : x = i
            · rw [if_pos hx, hx]
              exact Or.inr (by rw [hr1, hroot_eq])
            · rw [if_neg hx]
              rcases hpf1 x with h1 | h1
              · exact Or.inl h1
              · exact Or.inr h1

/-- `find` succeeds whenever the chain from `i` reaches a root within the
fuel bound. -/
theorem DisjointSets.findAux_some (n : Nat) :
    ∀ (fuel : Nat) (s : DisjointSets) (i k : Nat),
      s.nodes.length = n →
      (∀ x, x < n → s.pf x < n) →
      i < n →
      s.pf (s.pf^[k] i) = s.pf^[k] i →
      k < fuel →
      ∃ out, DisjointSets.findAux fuel s i = some out := by
  intro fuel
  induction fuel with
  | zero =>
    intro s i k _ _ _ _ hk
    omega
  | succ m ih =>
    intro s i k hlen hb hi hroot hk
    have hget : s.nodes.get? i = some (s.nodes.get ⟨i, by omega⟩) :=
      List.get?_eq_get (by omega)
    have hpfi : s.pf i = (s.nodes.get ⟨i, by omega⟩).parent := by
      unfold DisjointSets.pf
      rw [hget]
    unfold DisjointSets.findAux
    simp only [hget]
    by_cases hp : (s.nodes.get ⟨i, by omega⟩).parent = i
    · rw [if_pos hp]
      exact ⟨(s, i), rfl⟩
    · rw [if_neg hp]
      have hk0 : k ≠ 0 := by
        intro h0
        subst h0
        simp only [Function.iterate_zero_apply] at hroot
        rw [hpfi] at hroot
        exact hp hroot
      have hroot' : s.pf (s.pf^[k - 1] (s.pf i)) = s.pf^[k - 1] (s.pf i) := by
        have hke : k = (k - 1) + 1 := by omega
        rw [hke, Function.iterate_succ_apply] at hroot
        exact hroot
      obtain ⟨out, hout⟩ := ih s (s.pf i) (k - 1) hlen hb (hb i hi) hroot' (by omega)
      rw [hpfi] at hout
      obtain ⟨s1, r1⟩ := out
      simp only [hout]
      exact ⟨_, rfl⟩

/-- Repointing nodes directly at their own roots preserves bounds,
reachability of roots, and every representative. -/
theorem DisjointSets.comp_spec (n : Nat) (s s' : DisjointSets)
    (hlen : s.nodes.length = n) (hlen' : s'.nodes.length = n)
    (hb : ∀ x, x < n → s.pf x < n)
    (hre : ∀ x, ∃ k, s.pf (s.pf^[k] x) = s.pf^[k] x)
    (hcomp : ∀ x, s'.pf x = s.pf x ∨ s'.pf x = s.rootOf x) :
    (∀ x, x < n → s'.pf x < n) ∧
      (∀ x, ∃ k, s'.pf (s'.pf^[k] x) = s'.pf^[k] x) ∧
      (∀ x, s'.rootOf x = s.rootOf x) := by
  have hrootpres : ∀ z, s.pf z = z → s'.pf z = z := by
    intro z hz
    rcases hcomp z with h | h
    · rw [h, hz]
    · rw [h, s.rootOf_root z hz]
  have key : ∀ k x, s.pf (s.pf^[k] x) = s.pf^[k] x →
      s'.pf^[1] (s.rootOf x) = s.rootOf x ∧ ∃ m, s'.pf^[m] x = s.rootOf x := by
    intro k
    induction k with
    | zero =>
      intro x hx
      simp only [Function.iterate_zero_apply] at hx
      rw [s.rootOf_root x hx]
      exact ⟨by simpa using hrootpres x hx, 0, rfl⟩
    | succ k ihk =>
      intro x hx
      by_cases hroot : s.pf x = x
      · rw [s.rootOf_root x hroot]
        exact ⟨by simpa using hrootpres x hroot, 0, rfl⟩
      · have hx' : s.pf (s.pf^[k] (s.pf x)) = s.pf^[k] (s.pf x) := by
          rw [← Function.iterate_succ_apply]
          exact hx
        obtain ⟨hz, m, hm⟩ := ihk (s.pf x) hx'
        have hro : s.rootOf x = s.rootOf (s.pf x) := s.rootOf_pf n hlen hb hre x
        rcases hcomp x with hc | hc
        · refine ⟨by rw [hro]; exact hz, m + 1, ?_⟩
          rw [Function.iterate_succ_apply, hc, hm, hro]
        · have hzr : s.pf (s.rootOf x) = s.rootOf x := (s.rootOf_spec n hlen hb hre x).1
          exact ⟨by simpa using hrootpres _ hzr, 1, by simpa using hc⟩
  have hb' : ∀ x, x < n → s'.pf x < n := by
    intro x hx
    rcases hcomp x with h | h
    · rw [h]; exact hb x hx
    · rw [h]; exact s.rootOf_lt n hlen hb hre x hx
  have hre' : ∀ x, ∃ k, s'.pf (s'.pf^[k] x) = s'.pf^[k] x := by
    intro x
    obtain ⟨k, hk⟩ := hre x
    obtain ⟨hz, m, hm⟩ := key k x hk
    refine ⟨m, ?_⟩
    rw [hm]
    simpa using hz
  refine ⟨hb', hre', ?_⟩
  intro x
  obtain ⟨k, hk⟩ := hre x
  obtain ⟨hz, m, hm⟩ := key k x hk
  exact s'.rootOf_eq n hlen' hb' hre' x m (s.rootOf x) hm (by simpa using hz)

/-- Full specification of a successful `find`. -/
theorem DisjointSets.find_spec (n : Nat) (s : DisjointSets) (i : Nat)
    (s' : DisjointSets) (r : Nat)
    (hlen : s.nodes.length = n)
    (hb : ∀ x, x < n → s.pf x < n)
    (hre : ∀ x, ∃ k, s.pf (s.pf^[k] x) = s.pf^[k] x)
    (h : s.find i = some (s', r)) :
    r = s.rootOf i ∧ s'.nodes.length = n ∧ (∀ x, s'.sz x = s.sz x) ∧
      (∀ x, x < n → s'.pf x < n) ∧
      (∀ x, ∃ k, s'.pf (s'.pf^[k] x) = s'.pf^[k] x) ∧
      (∀ x, s'.rootOf x = s.rootOf x) := by
  obtain ⟨hr, hlen', hsz, hcomp⟩ :=
    DisjointSets.findAux_spec n s.nodes.length s i s' r hlen hb hre h
  obtain ⟨hb', hre', hro⟩ := DisjointSets.comp_spec n s s' hlen hlen' hb hre hcomp
  exact ⟨hr, hlen', hsz, hb', hre', hro⟩

/-- `find` succeeds on in-range arguments. -/
theorem DisjointSets.find_some (n : Nat) (s : DisjointSets) (i : Nat)
    (hlen : s.nodes.length = n)
    (hb : ∀ x, x < n → s.pf x < n)
    (hre : ∀ x, ∃ k, s.pf (s.pf^[k] x) = s.pf^[k] x)
    (hi : i < n) :
    ∃ out, s.find i = some out := by
  obtain ⟨hr, m, hm, hmn⟩ := s.rootOf_spec n hlen hb hre i
  have hroot : s.pf (s.pf^[m] i) = s.pf^[m] i := by rw [hm]; exact hr
  unfold DisjointSets.find
  exact DisjointSets.findAux_some n s.nodes.length s i m hlen hb hi hroot
    (by rw [hlen]; exact hmn hi)

/-- The invariant maintained by every reachable `DisjointSets` state:
correct length, in-range parents, every chain reaches a root, and each
root caches the exact cardinality of its set. -/
def DSInv (n : Nat) (s : DisjointSets) : Prop :=
  s.nodes.length = n ∧
    (∀ x, x < n → s.pf x < n) ∧
    (∀ x, ∃ k, s.pf (s.pf^[k] x) = s.pf^[k] x) ∧
    (∀ r, r < n → s.pf r = r →
      s.sz r = ((Finset.range n).filter (fun x => s.rootOf x = r)).card)

theorem DisjointSets.length_new (n : Nat) : (DisjointSets.new n).nodes.length = n := by
  simp [DisjointSets.new]

theorem DisjointSets.pf_new (n x : Nat) : (DisjointSets.new n).pf x = x := by
  unfold DisjointSets.pf DisjointSets.new
  by_cases hx : x < n
  · rw [List.get?_map, List.get?_range hx]
    rfl
  · rw [List.get?_eq_none.mpr (by simpa using Nat.le_of_not_lt hx)]

theorem DisjointSets.sz_new (n x : Nat) (hx : x < n) : (DisjointSets.new n).sz x = 1 := by
  unfold DisjointSets.sz DisjointSets.new
  rw [List.get?_map, List.get?_range hx]
  rfl

theorem DisjointSets.rootOf_new (n x : Nat) : (DisjointSets.new n).rootOf x = x :=
  DisjointSets.rootOf_root _ x (DisjointSets.pf_new n x)

theorem DSInv_new (n : Nat) : DSInv n (DisjointSets.new n) := by
  refine ⟨DisjointSets.length_new n, ?_, ?_, ?_⟩
  · intro x hx
    rw [DisjointSets.pf_new]
    exact hx
  · intro x
    exact ⟨0, by simpa using DisjointSets.pf_new n x⟩
  · intro r hr _
    rw [DisjointSets.sz_new n r hr]
    have hfe : (Finset.range n).filter (fun x => (DisjointSets.new n).rootOf x = r) =
        (Finset.range n).filter (fun x => x = r) := by
      apply Finset.filter_congr
      intro x _
      rw [DisjointSets.rootOf_new]
    rw [hfe, Finset.filter_eq', if_pos (Finset.mem_range.mpr hr)]
    simp

/-- The invariant transports along a state with identical length, sizes and
representatives. -/
theorem DSInv_transport (n : Nat) (s s' : DisjointSets) (hinv : DSInv n s)
    (hlen' : s'.nodes.length = n)
    (hsz : ∀ x, s'.sz x = s.sz x)
    (hb' : ∀ x, x < n → s'.pf x < n)
    (hre' : ∀ x, ∃ k, s'.pf (s'.pf^[k] x) = s'.pf^[k] x)
    (hro : ∀ x, s'.rootOf x = s.rootOf x) :
    DSInv n s' := by
  obtain ⟨hlen, hb, hre, hszinv⟩ := hinv
  refine ⟨hlen', hb', hre', ?_⟩
  intro r hr hroot'
  have hroot : s.pf r = r := by
    have h1 : s'.rootOf r = r := DisjointSets.rootOf_root s' r hroot'
    have h2 : s.rootOf r = r := by rw [← hro r, h1]
    have := (s.rootOf_spec n hlen hb hre r).1
    rw [h2] at this
    exact this
  rw [hsz r, hszinv r hr hroot]
  congr 1
  apply Finset.filter_congr
  intro x _
  rw [hro x]

/-- Re-parenting root `b` under root `a` (`a ≠ b`): sizes and length are
unchanged, parents stay in range, chains still reach roots, and the only
representative change is `b`'s set joining `a`'s. -/
theorem DisjointSets.linkRoots_spec (n : Nat) (s : DisjointSets) (a b : Nat)
    (hlen : s.nodes.length = n)
    (hb_ : ∀ x, x < n → s.pf x < n)
    (hre : ∀ x, ∃ k, s.pf (s.pf^[k] x) = s.pf^[k] x)
    (ha : s.pf a = a) (hbr : s.pf b = b) (hab : a ≠ b)
    (han : a < n) (hbn : b < n) :
    (s.linkRoots a b).nodes.length = n ∧
      (∀ x, (s.linkRoots a b).sz x = s.sz x) ∧
      (∀ x, (s.linkRoots a b).pf x = if x = b then a else s.pf x) ∧
      (∀ x, x < n → (s.linkRoots a b).pf x < n) ∧
      (∀ x, ∃ k, (s.linkRoots a b).pf ((s.linkRoots a b).pf^[k] x) =
        (s.linkRoots a b).pf^[k] x) ∧
      (∀ x, (s.linkRoots a b).rootOf x =
        if s.rootOf x = b then a else s.rootOf x) := by
  have hpf3 : ∀ x, (s.linkRoots a b).pf x = if x = b then a else s.pf x := by
    intro x
    unfold DisjointSets.linkRoots
    exact DisjointSets.pf_modify_parent s b a (by omega) x
  have hlen3 : (s.linkRoots a b).nodes.length = n := by
    unfold DisjointSets.linkRoots
    simpa [length_modifyNth] using hlen
  have hb3 : ∀ x, x < n → (s.linkRoots a b).pf x < n := by
    intro x hx
    rw [hpf3 x]
    by_cases hxb : x = b
    · rw [if_pos hxb]; exact han
    · rw [if_neg hxb]; exact hb_ x hx
  have haroot3 : (s.linkRoots a b).pf a = a := by
    rw [hpf3 a, if_neg hab]
    exact ha
  have key : ∀ k x, s.pf (s.pf^[k] x) = s.pf^[k] x →
      ((s.linkRoots a b).pf (if s.rootOf x = b then a else s.rootOf x) =
        (if s.rootOf x = b then a else s.rootOf x)) ∧
      ∃ m, (s.linkRoots a b).pf^[m] x = (if s.rootOf x = b then a else s.rootOf x) := by
    intro k
    induction k with
    | zero =>
      intro x hx
      simp only [Function.iterate_zero_apply] at hx
      rw [s.rootOf_root x hx]
      by_cases hxb : x = b
      · rw [if_pos hxb]
        refine ⟨haroot3, 1, ?_⟩
        simp only [Function.iterate_one]
        rw [hpf3 x, if_pos hxb]
      · rw [if_neg hxb]
        have : (s.linkRoots a b).pf x = x := by rw [hpf3 x, if_neg hxb]; exact hx
        exact ⟨this, 0, rfl⟩
    | succ k ihk =>
      intro x hx
      by_cases hroot : s.pf x = x
      · rw [s.rootOf_root x hroot]
        by_cases hxb : x = b
        · rw [if_pos hxb]
          refine ⟨haroot3, 1, ?_⟩
          simp only [Function.iterate_one]
          rw [hpf3 x, if_pos hxb]
        · rw [if_neg hxb]
          have : (s.linkRoots a b).pf x = x := by rw [hpf3 x, if_neg hxb]; exact hroot
          exact ⟨this, 0, rfl⟩
      · have hx' : s.pf (s.pf^[k] (s.pf x)) = s.pf^[k] (s.pf x) := by
          rw [← Function.iterate_succ_apply]
          exact hx
        obtain ⟨hz, m, hm⟩ := ihk (s.pf x) hx'
        have hxb : x ≠ b := fun hc => hroot (by rw [hc]; exact hbr)
        have hro : s.rootOf x = s.rootOf (s.pf x) := s.rootOf_pf n hlen hb_ hre x
        rw [hro]
        refine ⟨hz, m + 1, ?_⟩
        rw [Function.iterate_succ_apply, hpf3 x, if_neg hxb]
        exact hm
  have hre3 : ∀ x, ∃ k, (s.linkRoots a b).pf ((s.linkRoots a b).pf^[k] x) =
      (s.linkRoots a b).pf^[k] x := by
    intro x
    obtain ⟨k, hk⟩ := hre x
    obtain ⟨hz, m, hm⟩ := key k x hk
    exact ⟨m, by rw [hm]; exact hz⟩
  refine ⟨hlen3, ?_, hpf3, hb3, hre3, ?_⟩
  · intro x
    unfold DisjointSets.linkRoots
    exact DisjointSets.sz_modify_parent s b a x
  · intro x
    obtain ⟨k, hk⟩ := hre x
    obtain ⟨hz, m, hm⟩ := key k x hk
    exact (s.linkRoots a b).rootOf_eq n hlen3 hb3 hre3 x m _ hm hz

/-- Adding the merged size at root `a` changes no parent and no other
size, hence no representative. -/
theorem DisjointSets.bumpSize_spec (s : DisjointSets) (a b : Nat)
    (ha : a < s.nodes.length) :
    (s.bumpSize a b).nodes.length = s.nodes.length ∧
      (∀ x, (s.bumpSize a b).pf x = s.pf x) ∧
      (∀ x, (s.bumpSize a b).sz x = if x = a then s.sz a + s.sz b else s.sz x) ∧
      (∀ x, (s.bumpSize a b).rootOf x = s.rootOf x) := by
  have hlen : (s.bumpSize a b).nodes.length = s.nodes.length := by
    unfold DisjointSets.bumpSize
    simp [length_modifyNth]
  have hpf : ∀ x, (s.bumpSize a b).pf x = s.pf x := by
    intro x
    unfold DisjointSets.bumpSize
    exact DisjointSets.pf_modify_size s a _ x
  refine ⟨hlen, hpf, ?_, ?_⟩
  · intro x
    unfold DisjointSets.bumpSize
    exact DisjointSets.sz_modify_size s a _ ha x
  · intro x
    unfold DisjointSets.rootOf
    rw [hlen, rootF_congr (s.bumpSize a b).pf s.pf hpf]

/-- The non-trivial branch of `merge` (after the union-by-size swap):
linking root `b` under root `a` and bumping `a`'s size preserves the
invariant, merges exactly `b`'s class into `a`'s, and leaves `a`'s cached
size equal to the merged class's cardinality. -/
theorem DisjointSets.mergeLink_spec (n : Nat) (s2 : DisjointSets)
    (hinv : DSInv n s2) (a b : Nat)
    (ha : s2.pf a = a) (hbr : s2.pf b = b) (hab : a ≠ b)
    (han : a < n) (hbn : b < n) :
    DSInv n ((s2.linkRoots a b).bumpSize a b) ∧
      (∀ x, ((s2.linkRoots a b).bumpSize a b).rootOf x =
        if s2.rootOf x = b then a else s2.rootOf x) ∧
      ((s2.linkRoots a b).bumpSize a b).sz a =
        ((Finset.range n).filter
          (fun x => ((s2.linkRoots a b).bumpSize a b).rootOf x = a)).card := by
  obtain ⟨hlen, hb_, hre, hsz⟩ := hinv
  obtain ⟨hlen3, hsz3, hpf3, hb3, hre3, hro3⟩ :=
    DisjointSets.linkRoots_spec n s2 a b hlen hb_ hre ha hbr hab han hbn
  obtain ⟨hlen4, hpf4, hsz4, hro4⟩ :=
    DisjointSets.bumpSize_spec (s2.linkRoots a b) a b (by omega)
  have hlen4n : ((s2.linkRoots a b).bumpSize a b).nodes.length = n := by omega
  have hro42 : ∀ x, ((s2.linkRoots a b).bumpSize a b).rootOf x =
      if s2.rootOf x = b then a else s2.rootOf x := by
    intro x
    rw [hro4 x, hro3 x]
  have hb4 : ∀ x, x < n → ((s2.linkRoots a b).bumpSize a b).pf x < n := by
    intro x hx
    rw [hpf4 x]
    exact hb3 x hx
  have hre4 : ∀ x, ∃ k, ((s2.linkRoots a b).bumpSize a b).pf
      (((s2.linkRoots a b).bumpSize a b).pf^[k] x) =
      ((s2.linkRoots a b).bumpSize a b).pf^[k] x := by
    have hfe : ((s2.linkRoots a b).bumpSize a b).pf = (s2.linkRoots a b).pf :=
      funext hpf4
    rw [hfe]
    exact hre3
  have hpf3b : (s2.linkRoots a b).pf b = a := by rw [hpf3 b, if_pos rfl]
  have hsizes : ∀ r, r < n → ((s2.linkRoots a b).bumpSize a b).pf r = r →
      ((s2.linkRoots a b).bumpSize a b).sz r =
        ((Finset.range n).filter
          (fun x => ((s2.linkRoots a b).bumpSize a b).rootOf x = r)).card := by
    intro r hr hroot4
    rw [hpf4 r] at hroot4
    have hrb : r ≠ b := by
      intro hc
      subst hc
      rw [hpf3b] at hroot4
      exact hab hroot4
    have hroot2 : s2.pf r = r := by
      rw [hpf3 r, if_neg hrb] at hroot4
      exact hroot4
    by_cases hra : r = a
    · subst hra
      rw [hsz4 r, if_pos rfl, hsz3 r, hsz3 b]
      have hfe : (Finset.range n).filter
          (fun x => ((s2.linkRoots r b).bumpSize r b).rootOf x = r) =
          (Finset.range n).filter (fun x => s2.rootOf x = r ∨ s2.rootOf x = b) := by
        apply Finset.filter_congr
        intro x _
        rw [hro42 x]
        by_cases hc : s2.rootOf x = b
        · simp [hc]
        · simp [hc]
      rw [hfe, Finset.filter_or]
      rw [Finset.card_union_of_disjoint]
      · rw [hsz r hr hroot2, hsz b hbn hbr]
      · rw [Finset.disjoint_left]
        intro x hx1 hx2
        simp only [Finset.mem_filter] at hx1 hx2
        exact hab (hx1.2 ▸ hx2.2)
    · rw [hsz4 r, if_neg hra, hsz3 r, hsz r hr hroot2]
      congr 1
      apply Finset.filter_congr
      intro x _
      rw [hro42 x]
      by_cases hc : s2.rootOf x = b
      · rw [if_pos hc, hc]
        exact ⟨fun h => absurd h.symm hrb, fun h => absurd h.symm hra⟩
      · rw [if_neg hc]
  refine ⟨⟨hlen4n, hb4, hre4, hsizes⟩, hro42, ?_⟩
  apply hsizes a han
  rw [hpf4 a, hpf3 a, if_neg hab]
  exact ha

/-- Full specification of `merge` on an invariant-satisfying state with
in-range arguments. -/
theorem DisjointSets.merge_spec (n : Nat) (s : DisjointSets) (hinv : DSInv n s)
    (i j : Nat) (hi : i < n) (hj : j < n) :
    ∃ s' k, s.merge i j = some (s', k) ∧ DSInv n s' ∧
      s'.rootOf i = s'.rootOf j ∧
      k = ((Finset.range n).filter (fun x => s'.rootOf x = s'.rootOf i)).card ∧
      (s.rootOf i = s.rootOf j → ∀ x, s'.rootOf x = s.rootOf x) := by
  obtain ⟨hlen, hb, hre, hsz⟩ := hinv
  obtain ⟨out1, hf1⟩ := DisjointSets.find_some n s i hlen hb hre hi
  obtain ⟨s1, ri⟩ := out1
  obtain ⟨hri, hlen1, hsz1, hb1, hre1, hro1⟩ :=
    DisjointSets.find_spec n s i s1 ri hlen hb hre hf1
  have hinv1 : DSInv n s1 :=
    DSInv_transport n s s1 ⟨hlen, hb, hre, hsz⟩ hlen1 hsz1 hb1 hre1 hro1
  obtain ⟨out2, hf2⟩ := DisjointSets.find_some n s1 j hlen1 hb1 hre1 hj
  obtain ⟨s2, rj⟩ := out2
  obtain ⟨hrj, hlen2, hsz2, hb2, hre2, hro2⟩ :=
    DisjointSets.find_spec n s1 j s2 rj hlen1 hb1 hre1 hf2
  have hinv2 : DSInv n s2 :=
    DSInv_transport n s1 s2 hinv1 hlen2 hsz2 hb2 hre2 hro2
  have hro2s : ∀ x, s2.rootOf x = s.rootOf x := fun x => (hro2 x).trans (hro1 x)
  have hri' : ri = s.rootOf i := hri
  have hrj' : rj = s.rootOf j := by rw [hrj, hro1 j]
  have hriroot2 : s2.pf ri = ri := by
    have h1 : s.pf ri = ri := by rw [hri']; exact (s.rootOf_spec n hlen hb hre i).1
    have h2 : s2.rootOf ri = ri := by rw [hro2s ri]; exact s.rootOf_root ri h1
    have h3 := (s2.rootOf_spec n hlen2 hb2 hre2 ri).1
    rw [h2] at h3
    exact h3
  have hrjroot2 : s2.pf rj = rj := by
    have h1 : s.pf rj = rj := by rw [hrj']; exact (s.rootOf_spec n hlen hb hre j).1
    have h2 : s2.rootOf rj = rj := by rw [hro2s rj]; exact s.rootOf_root rj h1
    have h3 := (s2.rootOf_spec n hlen2 hb2 hre2 rj).1
    rw [h2] at h3
    exact h3
  have hrin : ri < n := by rw [hri']; exact s.rootOf_lt n hlen hb hre i hi
  have hrjn : rj < n := by rw [hrj']; exact s.rootOf_lt n hlen hb hre j hj
  have h2i : s2.rootOf i = ri := by rw [hro2s i, hri']
  have h2j : s2.rootOf j = rj := by rw [hro2s j, hrj']
  unfold DisjointSets.merge
  simp only [hf1, hf2]
  by_cases heq : ri = rj
  · rw [if_pos heq]
    refine ⟨s2, s2.sz ri, rfl, hinv2, ?_, ?_, ?_⟩
    · rw [h2i, h2j]; exact heq
    · have hsz2inv := hinv2.2.2.2
      rw [h2i]
      exact hsz2inv ri hrin hriroot2
    · intro _ x
      exact hro2s x
  · rw [if_neg heq]
    by_cases hlt : s2.sz ri < s2.sz rj
    · rw [if_pos hlt]
      obtain ⟨hinv4, hro4, hk4⟩ := DisjointSets.mergeLink_spec n s2 hinv2 rj ri
        hrjroot2 hriroot2 (fun hc => heq hc.symm) hrjn hrin
      refine ⟨_, _, rfl, hinv4, ?_, ?_, ?_⟩
      · rw [hro4 i, hro4 j, h2i, h2j, if_pos rfl,
          if_neg (fun hc : rj = ri => heq hc.symm)]
      · have hri4 : ((s2.linkRoots rj ri).bumpSize rj ri).rootOf i = rj := by
          rw [hro4 i, h2i, if_pos rfl]
        rw [hri4]
        exact hk4
      · intro hcon
        exact absurd (by rw [hri', hrj', hcon] : ri = rj) heq
    · rw [if_neg hlt]
      obtain ⟨hinv4, hro4, hk4⟩ := DisjointSets.mergeLink_spec n s2 hinv2 ri rj
        hriroot2 hrjroot2 heq hrin hrjn
      refine ⟨_, _, rfl, hinv4, ?_, ?_, ?_⟩
      · rw [hro4 i, hro4 j, h2i, h2j, if_pos rfl,
          if_neg (fun hc : ri = rj => heq hc)]
      · have hri4 : ((s2.linkRoots ri rj).bumpSize ri rj).rootOf i = ri := by
          rw [hro4 i, h2i, if_neg (fun hc : ri = rj => heq hc)]
        rw [hri4]
        exact hk4
      · intro hcon
        exact absurd (by rw [hri', hrj', hcon] : ri = rj) heq

/-- Every reachable state satisfies the invariant. -/
theorem DSReachable_inv (n : Nat) (s : DisjointSets) (h : DSReachable n s) :
    DSInv n s := by
  induction h with
  | base => exact DSInv_new n
  | find_step s i s' r hreach hi hf ih =>
    obtain ⟨hlen, hb, hre, hsz⟩ := ih
    obtain ⟨_, hlen', hsz', hb', hre', hro'⟩ :=
      DisjointSets.find_spec n s i s' r hlen hb hre hf
    exact DSInv_transport n s s' ⟨hlen, hb, hre, hsz⟩ hlen' hsz' hb' hre' hro'
  | merge_step s i j s' k hreach hi hj hm ih =>
    obtain ⟨s'', k'', hm'', hinv'', _⟩ := DisjointSets.merge_spec n s ih i j hi hj
    rw [hm] at hm''
    injection hm'' with h1
    injection h1 with hs hk
    rw [← hs] at hinv''
    exact hinv''

/-- C5: on every reachable state and in-range `i`, `j`, `merge i j`
succeeds and returns exactly the cardinality of the merged set containing
`i` and `j` (measured after the call); when `i` and `j` already share a
representative, the partition is unchanged and the returned value is that
set's current size. -/
theorem C5_merge_returns_exact_size (n : Nat) (s : DisjointSets)
    (hs : DSReachable n s) (i j : Nat) (hi : i < n) (hj : j < n) :
    ∃ s' k, s.merge i j = some (s', k) ∧
      s'.rootOf i = s'.rootOf j ∧
      k = ((Finset.range n).filter (fun x => s'.rootOf x = s'.rootOf i)).card ∧
      (s.rootOf i = s.rootOf j →
        (∀ x, s'.rootOf x = s.rootOf x) ∧
        k = ((Finset.range n).filter (fun x => s.rootOf x = s.rootOf i)).card) := by
  have hinv := DSReachable_inv n s hs
  obtain ⟨s', k, hm, _, hroots, hcard, hid⟩ :=
    DisjointSets.merge_spec n s hinv i j hi hj
  refine ⟨s', k, hm, hroots, hcard, ?_⟩
  intro hij
  refine ⟨hid hij, ?_⟩
  rw [hcard]
  congr 1
  apply Finset.filter_congr
  intro x _
  rw [hid hij x, hid hij i]

/-- Witness state for the disjoint-set claims: `new 3` after `merge 0 1`
(element 1 re-parented under 0, which caches size 2). -/
def dsW : DisjointSets := ⟨[⟨0, 2⟩, ⟨0, 1⟩, ⟨2, 1⟩]⟩

theorem dsW_reachable : DSReachable 3 dsW :=
  DSReachable.merge_step (DisjointSets.new 3) 0 1 dsW 2
    DSReachable.base (by omega) (by omega) (by decide)

/-- Witness for C5: merging the already-merged pair `(0, 1)` in `dsW`. -/
theorem C5_merge_returns_exact_size_witness :
    ∃ s' k, dsW.merge 0 1 = some (s', k) ∧
      s'.rootOf 0 = s'.rootOf 1 ∧
      k = ((Finset.range 3).filter (fun x => s'.rootOf x = s'.rootOf 0)).card ∧
      (dsW.rootOf 0 = dsW.rootOf 1 →
        (∀ x, s'.rootOf x = dsW.rootOf x) ∧
        k = ((Finset.range 3).filter (fun x => dsW.rootOf x = dsW.rootOf 0)).card) :=
  C5_merge_returns_exact_size 3 dsW dsW_reachable 0 1 (by omega) (by omega)

/-- C10: on every reachable state, every in-range node's parent is in
range, the chain of parent links reaches a self-parented root in fewer
than `n` steps, and `find` succeeds (no out-of-range indexing, fuel `n`
suffices) while preserving every element's representative. -/
theorem C10_find_terminates_invariants (n : Nat) (s : DisjointSets)
    (hs : DSReachable n s) :
    (∀ i, i < n → s.pf i < n) ∧
      (∀ i, i < n → ∃ k, k < n ∧ s.pf^[k] i = s.rootOf i ∧
        s.pf (s.rootOf i) = s.rootOf i) ∧
      (∀ i, i < n → ∃ s' r, s.find i = some (s', r) ∧
        ∀ x, s'.rootOf x = s.rootOf x) := by
  obtain ⟨hlen, hb, hre, _⟩ := DSReachable_inv n s hs
  refine ⟨hb, ?_, ?_⟩
  · intro i hi
    obtain ⟨hr, m, hm, hmn⟩ := s.rootOf_spec n hlen hb hre i
    exact ⟨m, hmn hi, hm, hr⟩
  · intro i hi
    obtain ⟨out, hf⟩ := DisjointSets.find_some n s i hlen hb hre hi
    obtain ⟨s', r⟩ := out
    obtain ⟨_, _, _, _, _, hro⟩ := DisjointSets.find_spec n s i s' r hlen hb hre hf
    exact ⟨s', r, hf, hro⟩

/-- Witness for C10 at the concrete reachable state `dsW`. -/
theorem C10_find_terminates_invariants_witness :
    (∀ i, i < 3 → dsW.pf i < 3) ∧
      (∀ i, i < 3 → ∃ k, k < 3 ∧ dsW.pf^[k] i = dsW.rootOf i ∧
        dsW.pf (dsW.rootOf i) = dsW.rootOf i) ∧
      (∀ i, i < 3 → ∃ s' r, dsW.find i = some (s', r) ∧
        ∀ x, s'.rootOf x = dsW.rootOf x) :=
  C10_find_terminates_invariants 3 dsW dsW_reachable

/-! ## Visibility (`vision.rs`)

Symmetric shadowcasting.  `Rational32` slopes are modelled as `ℚ`.  The
work loop (`while let Some(mut row) = queue.pop()`) is modelled with
explicit fuel because, as proved below, it does not terminate for every
blocking predicate.  The queue is a stack; the model keeps the stack top
at the list head. -/

/-- `Quadrant` from `vision.rs`. -/
inductive Quadrant where
  | North
  | South
  | East
  | West
deriving DecidableEq, Repr

/-- `Quadrant::transform` from `vision.rs`. -/
def Quadrant.transform (q : Quadrant) (origin : Pt) (distance column : Int) : Pt :=
  match q with
  | .North => ⟨origin.x - column, origin.y - distance⟩
  | .South => ⟨origin.x + column, origin.y + distance⟩
  | .East => ⟨origin.x + distance, origin.y - column⟩
  | .West => ⟨origin.x - distance, origin.y + column⟩

/-- `QuadrantPoint::wall_tangent_slope`: `(2*column - 1) / (2*distance)`
(exact rational; `distance ≥ 1` on every constructed point). -/
def wallTangentSlope (column distance : Int) : ℚ :=
  (2 * column - 1 : ℚ) / (2 * distance : ℚ)

/-- `round_ties_up` from `vision.rs`: `(n + 1/2).floor()`. -/
def roundTiesUp (n : ℚ) : Int := Int.floor (n + 1 / 2)

/-- `round_ties_down` from `vision.rs`: `(n - 1/2).ceil()`. -/
def roundTiesDown (n : ℚ) : Int := Int.ceil (n - 1 / 2)

/-- `QuadrantRow` from `vision.rs`. -/
structure QuadrantRow where
  distance : Int
  start_slope : ℚ
  end_slope : ℚ
deriving DecidableEq, Repr

/-- `QuadrantRow::contains_center`:
`start_slope * distance ≤ column ≤ end_slope * distance`. -/
def containsCenter (start_slope end_slope : ℚ) (distance column : Int) : Bool :=
  decide (start_slope * distance ≤ (column : ℚ)) &&
    decide ((column : ℚ) ≤ end_slope * distance)

/-- The inclusive integer range `lo..=hi` as a list. -/
def intRange (lo hi : Int) : List Int :=
  (List.range (hi + 1 - lo).toNat).map (fun (k : Nat) => lo + (k : Int))

/-- `HashSet::insert`. -/
def insertPt (l : List Pt) (p : Pt) : List Pt :=
  if l.contains p then l else p :: l

/-- Accumulator of the per-row column loop in `get_vision`: the row's
mutable `start_slope`, `prev_tile` (its column; the row's distance is
fixed), the rows pushed so far (in push order), and the vision set. -/
structure RowScan where
  startS : ℚ
  prev : Option Int
  pushed : List QuadrantRow
  vis : List Pt
deriving Repr

/-- One iteration of the `for column in min_column..=max_column` loop of
`get_vision`: reveal walls and center-contained tiles, split the row on a
floor→wall transition (pushing a clipped continuation), move the start
slope past a wall→floor transition. -/
def scanStep (B : Pt → Bool) (q : Quadrant) (origin : Pt)
    (distance : Int) (end_slope : ℚ) (st : RowScan) (column : Int) : RowScan :=
  let wall := B (q.transform origin distance column)
  let prevWall := match st.prev with
    | none => false
    | some c => B (q.transform origin distance c)
  let prevFloor := match st.prev with
    | none => false
    | some c => !B (q.transform origin distance c)
  let vis1 := if wall || containsCenter st.startS end_slope distance column then
      insertPt st.vis (q.transform origin distance column)
    else st.vis
  let pushed1 := if prevFloor && wall then
      st.pushed ++ [⟨distance + 1, st.startS, wallTangentSlope column distance⟩]
    else st.pushed
  let startS1 := if prevWall && !wall then wallTangentSlope column distance
    else st.startS
  ⟨startS1, some column, pushed1, vis1⟩

/-- The trailing `if is_floor(prev_tile)` push of `get_vision`'s row body:
a continuation row at `distance + 1` when the row ended on a floor tile. -/
def processTail (B : Pt → Bool) (q : Quadrant) (origin : Pt)
    (row : QuadrantRow) (sc : RowScan) : List QuadrantRow × List Pt :=
  match sc.prev with
  | none => (sc.pushed, sc.vis)
  | some c =>
    if B (q.transform origin row.distance c) then (sc.pushed, sc.vis)
    else (sc.pushed ++ [⟨row.distance + 1, sc.startS, row.end_slope⟩], sc.vis)

/-- The whole body of one `queue.pop()` in `get_vision`: scan the row's
columns, then push a continuation row if the row ended on a floor tile.
Returns the pushed rows (in push order) and the updated vision set. -/
def processRow (B : Pt → Bool) (q : Quadrant) (origin : Pt)
    (row : QuadrantRow) (vis : List Pt) : List QuadrantRow × List Pt :=
  processTail B q origin row
    ((intRange (roundTiesUp (row.start_slope * row.distance))
        (roundTiesDown (row.end_slope * row.distance))).foldl
      (scanStep B q origin row.distance row.end_slope)
      ⟨row.start_slope, none, [], vis⟩)

/-- The `while let Some(mut row) = queue.pop()` loop of `get_vision`, with
fuel; the stack top is the list head, so rows pushed in order end up
reversed on top. -/
def visLoop (B : Pt → Bool) (q : Quadrant) (origin : Pt) :
    Nat → List QuadrantRow → List Pt → Option (List Pt)
  | _, [], vis => some vis
  | 0, _ :: _, _ => none
  | fuel + 1, row :: rest, vis =>
    visLoop B q origin fuel
      ((processRow B q origin row vis).1.reverse ++ rest)
      (processRow B q origin row vis).2

/-- One quadrant of `get_vision`: the loop seeded with the full first-row
arc `(distance 1, slopes -1..1)`. -/
def getVisionQuadrant (B : Pt → Bool) (origin : Pt) (q : Quadrant)
    (fuel : Nat) (vis : List Pt) : Option (List Pt) :=
  visLoop B q origin fuel [⟨1, -1, 1⟩] vis

/-- `get_vision` from `vision.rs` (fuelled): start from `{origin}` and
process the four quadrants in source order. -/
def getVisionFuel (fuel : Nat) (origin : Pt) (B : Pt → Bool) : Option (List Pt) :=
  match getVisionQuadrant B origin .North fuel [origin] with
  | none => none
  | some v1 =>
    match getVisionQuadrant B origin .South fuel v1 with
    | none => none
    | some v2 =>
      match getVisionQuadrant B origin .East fuel v2 with
      | none => none
      | some v3 => getVisionQuadrant B origin .West fuel v3

/-- `get_vision(origin, is_blocking)` halts: some finite fuel completes the
work loops of all four quadrants. -/
def GetVisionTerminates (origin : Pt) (B : Pt → Bool) : Prop :=
  ∃ fuel, getVisionFuel fuel origin B ≠ none

theorem intRange_ne_nil (lo hi : Int) (h : lo ≤ hi) : intRange lo hi ≠ [] := by
  apply List.ne_nil_of_length_pos
  unfold intRange
  rw [List.length_map, List.length_range]
  omega

/-- Column bounds of the full arc `(-1, 1)` at distance `d ≥ 1`:
`round_ties_up(-d) = -d` and `round_ties_down(d) = d`. -/
theorem fullArc_minC (d : Int) (hd : 1 ≤ d) :
    roundTiesUp ((-1 : ℚ) * (d : ℚ)) = -d := by
  unfold roundTiesUp
  rw [Int.floor_eq_iff]
  constructor
  · push_cast
    nlinarith [hd]
  · push_cast
    nlinarith [hd]

theorem fullArc_maxC (d : Int) (hd : 1 ≤ d) :
    roundTiesDown ((1 : ℚ) * (d : ℚ)) = d := by
  unfold roundTiesDown
  rw [Int.ceil_eq_iff]
  constructor
  · push_cast
    nlinarith [hd]
  · push_cast
    nlinarith [hd]

/-- With a never-blocking predicate, scanning a row changes neither the
start slope nor the pushed list, and leaves `prev_tile` on the last
column scanned. -/
theorem scan_noWalls (q : Quadrant) (origin : Pt) (d : Int) (e : ℚ) :
    ∀ (cols : List Int) (st : RowScan),
      ((cols.foldl (scanStep (fun _ => false) q origin d e) st).startS = st.startS ∧
        (cols.foldl (scanStep (fun _ => false) q origin d e) st).pushed = st.pushed) ∧
      (cols = [] → (cols.foldl (scanStep (fun _ => false) q origin d e) st).prev = st.prev) ∧
      (cols ≠ [] → ∃ c, (cols.foldl (scanStep (fun _ => false) q origin d e) st).prev = some c) := by
  intro cols
  induction cols with
  | nil => intro st; exact ⟨⟨rfl, rfl⟩, fun _ => rfl, fun h => absurd rfl h⟩
  | cons c t ih =>
    intro st
    rw [List.foldl_cons]
    have hstep : scanStep (fun _ => false) q origin d e st c =
        ⟨st.startS, some c, st.pushed, (scanStep (fun _ => false) q origin d e st c).vis⟩ := by
      unfold scanStep
      cases st.prev <;> simp
    rw [hstep]
    obtain ⟨⟨h1, h2⟩, h3, h4⟩ := ih ⟨st.startS, some c, st.pushed, _⟩
    refine ⟨⟨h1, h2⟩, fun hc => absurd hc (by simp), fun _ => ?_⟩
    by_cases ht : t = []
    · subst ht
      exact ⟨c, h3 rfl⟩
    · exact h4 ht

/-- With a never-blocking predicate the full arc at distance `d ≥ 1`
pushes exactly the full arc at distance `d + 1`. -/
theorem processRow_noWalls (q : Quadrant) (origin : Pt) (d : Int) (hd : 1 ≤ d)
    (vis : List Pt) :
    (processRow (fun _ => false) q origin ⟨d, -1, 1⟩ vis).1 =
      [⟨d + 1, -1, 1⟩] := by
  unfold processRow processTail
  dsimp only
  rw [fullArc_minC d hd, fullArc_maxC d hd]
  obtain ⟨⟨h1, h2⟩, _, h4⟩ :=
    scan_noWalls q origin d 1 (intRange (-d) d) ⟨-1, none, [], vis⟩
  obtain ⟨c, hc⟩ := h4 (intRange_ne_nil _ _ (by omega))
  simp only [hc, h1, h2]
  simp

/-- With a never-blocking predicate the work loop runs forever: the queue
is always the singleton full arc of the next distance. -/
theorem visLoop_noWalls_none (q : Quadrant) (origin : Pt) :
    ∀ (fuel : Nat) (d : Int), 1 ≤ d → ∀ (vis : List Pt),
      visLoop (fun _ => false) q origin fuel [⟨d, -1, 1⟩] vis = none := by
  intro fuel
  induction fuel with
  | zero => intro d _ vis; rfl
  | succ f ih =>
    intro d hd vis
    show visLoop (fun _ => false) q origin f
      ((processRow (fun _ => false) q origin ⟨d, -1, 1⟩ vis).1.reverse ++ [])
      (processRow (fun _ => false) q origin ⟨d, -1, 1⟩ vis).2 = none
    rw [processRow_noWalls q origin d hd vis]
    simpa using ih (d + 1) (by omega) _

/-- C4 counterexample: with the never-blocking predicate (every tile
floor), `get_vision` does not halt — no fuel completes even the first
quadrant, because each full-arc row pushes the full arc one tile farther
out. -/
theorem C4_get_vision_no_blocking_diverges :
    ¬ GetVisionTerminates ⟨0, 0⟩ (fun _ => false) := by
  intro hterm
  obtain ⟨fuel, hfuel⟩ := hterm
  apply hfuel
  unfold getVisionFuel getVisionQuadrant
  rw [visLoop_noWalls_none Quadrant.North ⟨0, 0⟩ fuel 1 (by omega) [⟨0, 0⟩]]

theorem visLoop_nil (B : Pt → Bool) (q : Quadrant) (o : Pt) (fuel : Nat)
    (vis : List Pt) : visLoop B q o fuel [] vis = some vis := by
  cases fuel <;> rfl

theorem visLoop_cons (B : Pt → Bool) (q : Quadrant) (o : Pt) (fuel : Nat)
    (row : QuadrantRow) (rest : List QuadrantRow) (vis : List Pt) :
    visLoop B q o (fuel + 1) (row :: rest) vis =
      visLoop B q o fuel ((processRow B q o row vis).1.reverse ++ rest)
        (processRow B q o row vis).2 := rfl

theorem visLoop_mono (B : Pt → Bool) (q : Quadrant) (o : Pt) :
    ∀ (fuel : Nat) (queue : List QuadrantRow) (vis v : List Pt),
      visLoop B q o fuel queue vis = some v →
      ∀ fuel', fuel ≤ fuel' → visLoop B q o fuel' queue vis = some v := by
  intro fuel
  induction fuel with
  | zero =>
    intro queue vis v h fuel' _
    cases queue with
    | nil => rw [visLoop_nil] at h; rw [visLoop_nil]; exact h
    | cons r t => cases h
  | succ f ih =>
    intro queue vis v h fuel' hle
    cases queue with
    | nil => rw [visLoop_nil] at h; rw [visLoop_nil]; exact h
    | cons r t =>
      cases fuel' with
      | zero => omega
      | succ f' =>
        rw [visLoop_cons] at h
        rw [visLoop_cons]
        exact ih _ _ v h f' (by omega)

theorem visLoop_append (B : Pt → Bool) (q : Quadrant) (o : Pt) :
    ∀ (f1 : Nat) (q1 : List QuadrantRow) (vis v1 : List Pt),
      visLoop B q o f1 q1 vis = some v1 →
      ∀ (f2 : Nat) (q2 : List QuadrantRow) (v2 : List Pt),
        visLoop B q o f2 q2 v1 = some v2 →
        visLoop B q o (f1 + f2) (q1 ++ q2) vis = some v2 := by
  intro f1
  induction f1 with
  | zero =>
    intro q1 vis v1 h1 f2 q2 v2 h2
    cases q1 with
    | nil =>
      rw [visLoop_nil] at h1
      injection h1 with h1
      subst h1
      simpa using visLoop_mono B q o f2 q2 vis v2 h2 (0 + f2) (by omega)
    | cons r t => cases h1
  | succ f ih =>
    intro q1 vis v1 h1 f2 q2 v2 h2
    cases q1 with
    | nil =>
      rw [visLoop_nil] at h1
      injection h1 with h1
      subst h1
      simpa using visLoop_mono B q o f2 q2 vis v2 h2 (f + 1 + f2) (by omega)
    | cons r t =>
      rw [visLoop_cons] at h1
      have harr : f + 1 + f2 = (f + f2) + 1 := by omega
      rw [harr, List.cons_append, visLoop_cons, ← List.append_assoc]
      exact ih _ _ v1 h1 f2 q2 v2 h2

/-- Every pushed row sits one tile farther out than its parent row. -/
theorem scanStep_pushed (B : Pt → Bool) (q : Quadrant) (o : Pt)
    (d : Int) (e : ℚ) (st : RowScan) (c : Int) :
    (scanStep B q o d e st c).pushed = st.pushed ∨
      ∃ s', (scanStep B q o d e st c).pushed =
        st.pushed ++ [⟨d + 1, s', wallTangentSlope c d⟩] := by
  unfold scanStep
  dsimp only
  split_ifs with h
  · exact Or.inr ⟨st.startS, rfl⟩
  · exact Or.inl rfl

theorem scan_pushed_dist (B : Pt → Bool) (q : Quadrant) (o : Pt)
    (d : Int) (e : ℚ) :
    ∀ (cols : List Int) (st : RowScan),
      (∀ r ∈ st.pushed, r.distance = d + 1) →
      ∀ r ∈ (cols.foldl (scanStep B q o d e) st).pushed, r.distance = d + 1 := by
  intro cols
  induction cols with
  | nil => intro st h; exact h
  | cons c t ih =>
    intro st h
    rw [List.foldl_cons]
    apply ih
    rcases scanStep_pushed B q o d e st c with heq | ⟨s', heq⟩
    · rw [heq]; exact h
    · rw [heq]
      intro r hr
      rcases List.mem_append.mp hr with h1 | h2
      · exact h r h1
      · have : r = ⟨d + 1, s', wallTangentSlope c d⟩ := by simpa using h2
        rw [this]

theorem processRow_pushed_dist (B : Pt → Bool) (q : Quadrant) (o : Pt)
    (row : QuadrantRow) (vis : List Pt) :
    ∀ r ∈ (processRow B q o row vis).1, r.distance = row.distance + 1 := by
  unfold processRow processTail
  have hfold := scan_pushed_dist B q o row.distance row.end_slope
    (intRange (roundTiesUp (row.start_slope * row.distance))
      (roundTiesDown (row.end_slope * row.distance)))
    ⟨row.start_slope, none, [], vis⟩ (by intro r hr; cases hr)
  cases hp : ((intRange (roundTiesUp (row.start_slope * row.distance))
      (roundTiesDown (row.end_slope * row.distance))).foldl
      (scanStep B q o row.distance row.end_slope)
      ⟨row.start_slope, none, [], vis⟩).prev with
  | none =>
    simp only [hp]
    exact hfold
  | some c =>
    simp only [hp]
    split_ifs with hB
    · exact hfold
    · intro r hr
      rcases List.mem_append.mp hr with h1 | h2
      · exact hfold r h1
      · rw [List.mem_singleton] at h2
        rw [h2]

/-- When the previous tile was absent or a wall, a scan step pushes
nothing. -/
theorem scanStep_pushed_of_prevWall (B : Pt → Bool) (q : Quadrant) (o : Pt)
    (d : Int) (e : ℚ) (st : RowScan) (c : Int)
    (h : st.prev = none ∨ ∃ pc, st.prev = some pc ∧ B (q.transform o d pc) = true) :
    (scanStep B q o d e st c).pushed = st.pushed := by
  unfold scanStep
  dsimp only
  rcases h with hp | ⟨pc, hp, hpw⟩
  · simp [hp]
  · simp [hp, hpw]

/-- Scanning a row whose tiles are all blocked pushes nothing. -/
theorem scan_allWalls (B : Pt → Bool) (q : Quadrant) (o : Pt)
    (d : Int) (e : ℚ) (hW : ∀ col, B (q.transform o d col) = true) :
    ∀ (cols : List Int) (st : RowScan),
      st.pushed = [] →
      (st.prev = none ∨ ∃ c, st.prev = some c ∧ B (q.transform o d c) = true) →
      (cols.foldl (scanStep B q o d e) st).pushed = [] ∧
        ((cols.foldl (scanStep B q o d e) st).prev = none ∨
          ∃ c, (cols.foldl (scanStep B q o d e) st).prev = some c ∧
            B (q.transform o d c) = true) := by
  intro cols
  induction cols with
  | nil => intro st h1 h2; exact ⟨h1, h2⟩
  | cons c t ih =>
    intro st h1 h2
    rw [List.foldl_cons]
    apply ih
    · rw [scanStep_pushed_of_prevWall B q o d e st c h2]
      exact h1
    · unfold scanStep
      dsimp only
      exact Or.inr ⟨c, rfl, hW c⟩

/-- A row whose tiles are all blocked pushes nothing at all. -/
theorem processRow_allWalls (B : Pt → Bool) (q : Quadrant) (o : Pt)
    (row : QuadrantRow) (vis : List Pt)
    (hW : ∀ col, B (q.transform o row.distance col) = true) :
    (processRow B q o row vis).1 = [] := by
  unfold processRow processTail
  obtain ⟨hpush, hprev⟩ := scan_allWalls B q o row.distance row.end_slope hW
    (intRange (roundTiesUp (row.start_slope * row.distance))
      (roundTiesDown (row.end_slope * row.distance)))
    ⟨row.start_slope, none, [], vis⟩ rfl (Or.inl rfl)
  rcases hprev with hp | ⟨c, hp, hw⟩
  · simp only [hp]
    exact hpush
  · simp only [hp, hw, if_pos rfl]
    exact hpush

/-- Main termination argument: if every tile at quadrant distance `≥ R`
is blocked, any single row at distance `d ≥ 1` with `R ≤ d + g` is fully
processed by some finite fuel. -/
theorem visLoop_terminates_of_blocked (B : Pt → Bool) (q : Quadrant) (o : Pt)
    (R : Int) (hW : ∀ d col, R ≤ d → B (q.transform o d col) = true) :
    ∀ (g : Nat) (d : Int), 1 ≤ d → R ≤ d + (g : Int) →
      ∀ (s e : ℚ) (vis : List Pt), ∃ f v, visLoop B q o f [⟨d, s, e⟩] vis = some v := by
  intro g
  induction g with
  | zero =>
    intro d hd hR s e vis
    refine ⟨1, (processRow B q o ⟨d, s, e⟩ vis).2, ?_⟩
    rw [visLoop_cons, processRow_allWalls B q o ⟨d, s, e⟩ vis
      (fun col => hW d col (by simpa using hR))]
    simpa using visLoop_nil B q o 0 _
  | succ g ih =>
    intro d hd hR s e vis
    by_cases hRd : R ≤ d
    · refine ⟨1, (processRow B q o ⟨d, s, e⟩ vis).2, ?_⟩
      rw [visLoop_cons, processRow_allWalls B q o ⟨d, s, e⟩ vis
        (fun col => hW d col hRd)]
      simpa using visLoop_nil B q o 0 _
    · have hlist : ∀ (Q : List QuadrantRow), (∀ r ∈ Q, r.distance = d + 1) →
          ∀ vis', ∃ f v, visLoop B q o f Q vis' = some v := by
        intro Q
        induction Q with
        | nil => intro _ vis'; exact ⟨0, vis', visLoop_nil B q o 0 vis'⟩
        | cons r t iht =>
          intro hQ vis'
          have hr : r = ⟨d + 1, r.start_slope, r.end_slope⟩ := by
            have := hQ r (List.mem_cons_self _ _)
            cases r
            simp only at this
            rw [this]
          obtain ⟨f1, v1, h1⟩ := ih (d + 1) (by omega)
            (by push_cast at hR ⊢; omega) r.start_slope r.end_slope vis'
          rw [← hr] at h1
          obtain ⟨f2, v2, h2⟩ := iht (fun x hx => hQ x (List.mem_cons_of_mem _ hx)) v1
          exact ⟨f1 + f2, v2, by
            simpa using visLoop_append B q o f1 [r] vis' v1 h1 f2 t v2 h2⟩
      obtain ⟨f, v, hf⟩ := hlist (processRow B q o ⟨d, s, e⟩ vis).1.reverse
        (by
          intro r hr
          exact processRow_pushed_dist B q o ⟨d, s, e⟩ vis r (List.mem_reverse.mp hr))
        (processRow B q o ⟨d, s, e⟩ vis).2
      refine ⟨f + 1, v, ?_⟩
      rw [visLoop_cons]
      simpa using hf

/-- C4 (amended): `get_vision` halts whenever the blocking predicate
blocks every tile outside a bounded region around the origin, i.e. there
is `R ≥ 1` with every tile at Chebyshev distance `≥ R` blocking.  (The
counterexample above shows the original unconditional claim is false.) -/
theorem C4_get_vision_terminates_of_bounded_blocking (o : Pt) (B : Pt → Bool)
    (R : Int) (hR : 1 ≤ R)
    (hB : ∀ p : Pt, R ≤ max |p.x - o.x| |p.y - o.y| → B p = true) :
    GetVisionTerminates o B := by
  have hW : ∀ (q : Quadrant) (d col : Int), R ≤ d → B (q.transform o d col) = true := by
    intro q d col hd
    apply hB
    have hdpos : 0 ≤ d := by omega
    cases q <;> unfold Quadrant.transform <;> dsimp only <;>
      [skip; skip; skip; skip] <;>
      first
      | exact le_trans hd (by
          rw [show o.y - d - o.y = -d by ring, abs_neg, abs_of_nonneg hdpos]
          exact le_max_right _ _)
      | exact le_trans hd (by
          rw [show o.y + d - o.y = d by ring, abs_of_nonneg hdpos]
          exact le_max_right _ _)
      | exact le_trans hd (by
          rw [show o.x + d - o.x = d by ring, abs_of_nonneg hdpos]
          exact le_max_left _ _)
      | exact le_trans hd (by
          rw [show o.x - d - o.x = -d by ring, abs_neg, abs_of_nonneg hdpos]
          exact le_max_left _ _)
  have hq : ∀ (q : Quadrant) (vis : List Pt),
      ∃ f v, visLoop B q o f [⟨1, -1, 1⟩] vis = some v := by
    intro q vis
    exact visLoop_terminates_of_blocked B q o R (hW q) (R - 1).toNat 1
      (by omega) (by omega) (-1) 1 vis
  obtain ⟨f1, v1, h1⟩ := hq .North [o]
  obtain ⟨f2, v2, h2⟩ := hq .South v1
  obtain ⟨f3, v3, h3⟩ := hq .East v2
  obtain ⟨f4, v4, h4⟩ := hq .West v3
  refine ⟨max (max f1 f2) (max f3 f4), ?_⟩
  have e1 := visLoop_mono B .North o f1 _ _ _ h1 (max (max f1 f2) (max f3 f4)) (by omega)
  have e2 := visLoop_mono B .South o f2 _ _ _ h2 (max (max f1 f2) (max f3 f4)) (by omega)
  have e3 := visLoop_mono B .East o f3 _ _ _ h3 (max (max f1 f2) (max f3 f4)) (by omega)
  have e4 := visLoop_mono B .West o f4 _ _ _ h4 (max (max f1 f2) (max f3 f4)) (by omega)
  unfold getVisionFuel getVisionQuadrant
  simp only [e1, e2, e3, e4]
  exact fun h => Option.noConfusion h

/-- Witness for the amended C4: the everywhere-blocking predicate
confines vision, so `get_vision` halts. -/
theorem C4_get_vision_terminates_witness :
    GetVisionTerminates ⟨0, 0⟩ (fun _ => true) :=
  C4_get_vision_terminates_of_bounded_blocking ⟨0, 0⟩ (fun _ => true) 1
    (by omega) (fun p _ => rfl)

/-! ## Level generation (`level.rs`)

The room-placement stage of `Level::generate` and the corridor stage,
with the rng modelled as an oracle stream of integers (each `gen_range`
draw consumes one value and maps it into the requested range; an empty
range models the `rand` panic as a `panic` result).  `viewport`/
`TileLayout` are pure `f32` screen-mapping data with no effect on tile
geometry or panics, and creature spawning is outside the specified core,
so neither is modelled. -/

/-- The generation configuration (`GenerationConfig` in `level.rs`,
minus the viewport).  `min_floor_ratio` is `f32` in the source; it is
modelled as `ℚ` and only exercised where the `f32` comparison is exact. -/
structure GenConfig where
  tileportPos : Pt
  tileportSize : Vec
  minFloorRatio : ℚ
  minRoomSize : Int
  maxRoomSize : Int

/-- The one-tile-border floor region of `Level::generate`. -/
def borderFloor (cfg : GenConfig) : Rect :=
  ⟨⟨cfg.tileportPos.x + 1, cfg.tileportPos.y + 1⟩,
    ⟨cfg.tileportSize.x - 2, cfg.tileportSize.y - 2⟩⟩

/-- `rng.gen_range(lo..=hi)`: panics (`none`) exactly when the range is
empty; otherwise the draw `v` is mapped into `[lo, hi]` (surjectively as
`v` ranges over the integers). -/
def genRange (lo hi v : Int) : Option Int :=
  if hi < lo then none else some (lo + v.emod (hi - lo + 1))

/-- `rng.gen_range(lo..hi)` (half-open, used by corridor carving):
panics exactly when `hi ≤ lo`. -/
def genRangeHalf (lo hi v : Int) : Option Int :=
  if hi ≤ lo then none else some (lo + v.emod (hi - lo))

theorem genRange_bounds (lo hi v x : Int) (h : genRange lo hi v = some x) :
    lo ≤ x ∧ x ≤ hi := by
  unfold genRange at h
  split_ifs at h with hr
  injection h with h
  subst h
  have h1 : 0 ≤ v.emod (hi - lo + 1) := Int.emod_nonneg v (by omega)
  have h2 : v.emod (hi - lo + 1) < hi - lo + 1 := Int.emod_lt_of_pos v (by omega)
  omega

/-- The `(floor_area as f32 / total_area as f32) < min_floor_ratio` test.
`0/0` is NaN (compares false), `x/0` for `x > 0` is `+∞` (compares
false), for `x < 0` it is `-∞` (compares true); for nonzero denominators
the claims only exercise values where the `f32` division is exact, so the
comparison is modelled rationally. -/
def ratioLT (floorArea totalArea : Int) (ratio : ℚ) : Bool :=
  if totalArea = 0 then
    if 0 ≤ floorArea then false else true
  else if 0 < totalArea then
    decide (floorArea * (ratio.den : Int) < ratio.num * totalArea)
  else
    decide (ratio.num * totalArea < floorArea * (ratio.den : Int))

/-- Modelled from the spec: `random_neighbor_offset_eight` is referenced
by `level.rs` but not among the provided sources; per the spec the nudge
is "a fixed random 8-directional offset".  No claim depends on the
order. -/
def OFFSETS_EIGHT : List Vec :=
  [⟨0, -1⟩, ⟨0, 1⟩, ⟨-1, 0⟩, ⟨1, 0⟩, ⟨-1, -1⟩, ⟨1, -1⟩, ⟨-1, 1⟩, ⟨1, 1⟩]

/-- One full pass of the `while nudging` loop in `Level::generate`: test
the candidate against every placed room in order, nudging on contact;
the flag records whether any contact occurred. -/
def nudgePass (rooms : List Rect) (nudge : Vec) (cand : Rect) : Rect × Bool :=
  rooms.foldl
    (fun (st : Rect × Bool) r =>
      if st.1.touching r then (⟨st.1.pos.add nudge, st.1.size⟩, true) else st)
    (cand, false)

/-- The `while nudging` loop (fuelled: the Rust loop can fail to
terminate only by nudging forever, which cannot produce a room list). -/
def nudgeLoop : Nat → List Rect → Vec → Rect → Option Rect
  | 0, _, _, _ => none
  | fuel + 1, rooms, nudge, cand =>
    match nudgePass rooms nudge cand with
    | (c, false) => some c
    | (c, true) => nudgeLoop fuel rooms nudge c

/-- The crop step of `Level::generate`: clamp the candidate to the floor
region; if the real intersection is empty, zero the size (position kept)
so the room is discarded. -/
def cropRoom (cand floor : Rect) : Rect :=
  match cand.intersection floor with
  | .Real r => r
  | _ => ⟨cand.pos, ⟨0, 0⟩⟩

/-- Result of the room-placement stage. -/
inductive PlaceOut where
  | panic
  | fuelOut
  | ok (rooms : List Rect) (next : Nat)
deriving DecidableEq, Repr

/-- The room-placement loop of `Level::generate` (`while floor ratio not
reached`): sample a size and position, nudge until clear of every placed
room, crop, then reject (counting retries, breaking after 100
consecutive) or accept.  `k` indexes the rng oracle `O`. -/
def placeLoop (cfg : GenConfig) (floor : Rect) (O : Nat → Int) :
    Nat → Nat → List Rect → Int → Nat → PlaceOut
  | 0, _, _, _, _ => .fuelOut
  | fuel + 1, k, rooms, floorArea, retries =>
    if ratioLT floorArea floor.area cfg.minFloorRatio then
      match genRange cfg.minRoomSize cfg.maxRoomSize (O k),
          genRange cfg.minRoomSize cfg.maxRoomSize (O (k + 1)) with
      | some sx, some sy =>
        match genRange 0 (floor.size.x - sx) (O (k + 2)),
            genRange 0 (floor.size.y - sy) (O (k + 3)) with
        | some dx, some dy =>
          match nudgeLoop (fuel + 1) rooms
              (OFFSETS_EIGHT.getD ((O (k + 4)).emod 8).toNat ⟨1, 1⟩)
              ⟨⟨floor.pos.x + dx, floor.pos.y + dy⟩, ⟨sx, sy⟩⟩ with
          | none => .fuelOut
          | some moved =>
            if (cropRoom moved floor).size.x < cfg.minRoomSize ∨
                (cropRoom moved floor).size.y < cfg.minRoomSize then
              if 100 < retries + 1 then .ok rooms (k + 5)
              else placeLoop cfg floor O fuel (k + 5) rooms floorArea (retries + 1)
            else
              placeLoop cfg floor O fuel (k + 5) (rooms ++ [cropRoom moved floor])
                (floorArea + (cropRoom moved floor).area) 0
        | _, _ => .panic
      | _, _ => .panic
    else .ok rooms k

theorem Rect.touching_symm (a b : Rect) : a.touching b = b.touching a := by
  unfold Rect.touching Rect.startX Rect.startY Rect.endX Rect.endY
  rw [max_comm a.pos.x b.pos.x, max_comm a.pos.y b.pos.y,
    min_comm (a.pos.x + a.size.x) (b.pos.x + b.size.x),
    min_comm (a.pos.y + a.size.y) (b.pos.y + b.size.y)]

/-- `touching` is monotone in the first rectangle: a rectangle nested in
`a` touches no more than `a` does. -/
theorem Rect.touching_mono (a a' b : Rect)
    (hx1 : a.pos.x ≤ a'.pos.x) (hy1 : a.pos.y ≤ a'.pos.y)
    (hx2 : a'.pos.x + a'.size.x ≤ a.pos.x + a.size.x)
    (hy2 : a'.pos.y + a'.size.y ≤ a.pos.y + a.size.y)
    (h : a'.touching b = true) : a.touching b = true := by
  unfold Rect.touching Rect.startX Rect.startY Rect.endX Rect.endY at *
  simp only [Bool.and_eq_true, decide_eq_true_eq] at *
  omega

theorem nudgePass_fold_true (nudge : Vec) :
    ∀ (rooms : List Rect) (st : Rect × Bool), st.2 = true →
      (rooms.foldl
        (fun (st : Rect × Bool) r =>
          if st.1.touching r then (⟨st.1.pos.add nudge, st.1.size⟩, true) else st)
        st).2 = true := by
  intro rooms
  induction rooms with
  | nil => intro st h; exact h
  | cons r t ih =>
    intro st h
    rw [List.foldl_cons]
    by_cases hc : st.1.touching r = true
    · rw [if_pos hc]; exact ih _ rfl
    · rw [if_neg hc]; exact ih st h

/-- A nudge pass that reports no contact left the candidate unmoved and
found it touching no placed room. -/
theorem nudgePass_false (nudge : Vec) :
    ∀ (rooms : List Rect) (st : Rect × Bool) (c : Rect),
      (rooms.foldl
        (fun (st : Rect × Bool) r =>
          if st.1.touching r then (⟨st.1.pos.add nudge, st.1.size⟩, true) else st)
        st) = (c, false) →
      st.1 = c ∧ ∀ r ∈ rooms, c.touching r = false := by
  intro rooms
  induction rooms with
  | nil =>
    intro st c h
    rw [List.foldl_nil] at h
    subst h
    exact ⟨rfl, fun r hr => absurd hr (List.not_mem_nil r)⟩
  | cons r t ih =>
    intro st c h
    rw [List.foldl_cons] at h
    by_cases hc : st.1.touching r = true
    · rw [if_pos hc] at h
      have := nudgePass_fold_true nudge t
        (⟨(st.1).pos.add nudge, (st.1).size⟩, true) rfl
      rw [h] at this
      cases this
    · rw [if_neg hc] at h
      obtain ⟨h1, h2⟩ := ih st c h
      refine ⟨h1, fun x hx => ?_⟩
      rcases List.mem_cons.mp hx with hx1 | hx2
      · subst hx1
        rw [← h1]
        exact Bool.not_eq_true _ ▸ (by simpa using hc)
      · exact h2 x hx2

theorem nudgePass_fold_size (nudge : Vec) :
    ∀ (rooms : List Rect) (st : Rect × Bool),
      (rooms.foldl
        (fun (st : Rect × Bool) r =>
          if st.1.touching r then (⟨st.1.pos.add nudge, st.1.size⟩, true) else st)
        st).1.size = st.1.size := by
  intro rooms
  induction rooms with
  | nil => intro st; rfl
  | cons r t ih =>
    intro st
    rw [List.foldl_cons]
    by_cases hc : st.1.touching r = true
    · rw [if_pos hc, ih]
    · rw [if_neg hc, ih]

/-- The nudge loop returns a candidate of the original size that touches
no placed room. -/
theorem nudgeLoop_spec :
    ∀ (fuel : Nat) (rooms : List Rect) (nudge : Vec) (cand c : Rect),
      nudgeLoop fuel rooms nudge cand = some c →
      (∀ r ∈ rooms, c.touching r = false) ∧ c.size = cand.size := by
  intro fuel
  induction fuel with
  | zero => intro rooms nudge cand c h; cases h
  | succ f ih =>
    intro rooms nudge cand c h
    unfold nudgeLoop at h
    cases hnp : nudgePass rooms nudge cand with
    | mk c' flag =>
      rw [hnp] at h
      cases flag with
      | false =>
        injection h with hcc
        rw [← hcc]
        have hnp' : rooms.foldl
            (fun (st : Rect × Bool) r =>
              if st.1.touching r then (⟨st.1.pos.add nudge, st.1.size⟩, true) else st)
            (cand, false) = (c', false) := hnp
        obtain ⟨h1, h2⟩ := nudgePass_false nudge rooms (cand, false) c' hnp'
        exact ⟨h2, by rw [← h1]⟩
      | true =>
        obtain ⟨h1, h2⟩ := ih rooms nudge c' c h
        refine ⟨h1, ?_⟩
        rw [h2]
        have := nudgePass_fold_size nudge rooms (cand, false)
        unfold nudgePass at hnp
        rw [hnp] at this
        exact this

/-- The cropped room is nested in the candidate (which has non-negative
sizes). -/
theorem cropRoom_sub (cand floor : Rect) (hx : 0 ≤ cand.size.x)
    (hy : 0 ≤ cand.size.y) :
    cand.pos.x ≤ (cropRoom cand floor).pos.x ∧
      cand.pos.y ≤ (cropRoom cand floor).pos.y ∧
      (cropRoom cand floor).pos.x + (cropRoom cand floor).size.x ≤
        cand.pos.x + cand.size.x ∧
      (cropRoom cand floor).pos.y + (cropRoom cand floor).size.y ≤
        cand.pos.y + cand.size.y := by
  unfold cropRoom Rect.intersection
  split_ifs with h1 h2 h2 <;>
    dsimp only <;>
    unfold Rect.startX Rect.startY Rect.endX Rect.endY at * <;>
    refine ⟨?_, ?_, ?_, ?_⟩ <;>
    omega

/-- Invariant: the room-placement loop keeps the accepted list pairwise
non-touching. -/
theorem placeLoop_pairwise (cfg : GenConfig) (floor : Rect) (O : Nat → Int)
    (hmin : 0 ≤ cfg.minRoomSize) :
    ∀ (fuel k : Nat) (rooms : List Rect) (fa : Int) (rt : Nat)
      (out : List Rect) (nk : Nat),
      List.Pairwise (fun a b => a.touching b = false) rooms →
      placeLoop cfg floor O fuel k rooms fa rt = .ok out nk →
      List.Pairwise (fun a b => a.touching b = false) out := by
  intro fuel
  induction fuel with
  | zero =>
    intro k rooms fa rt out nk _ heq
    exact PlaceOut.noConfusion heq
  | succ f ih =>
    intro k rooms fa rt out nk hpw heq
    unfold placeLoop at heq
    by_cases hcond : ratioLT fa floor.area cfg.minFloorRatio = true
    · rw [if_pos hcond] at heq
      split at heq
      · rename_i sx sy hsx hsy
        split at heq
        · rename_i dx dy hdx hdy
          split at heq
          · exact PlaceOut.noConfusion heq
          · rename_i moved hnl
            obtain ⟨hnt, hsz⟩ := nudgeLoop_spec _ _ _ _ _ hnl
            split_ifs at heq with hrej hbreak
            · injection heq with h1 h2
              subst h1
              exact hpw
            · exact ih _ _ _ _ out nk hpw heq
            · refine ih _ _ _ _ out nk ?_ heq
              rw [List.pairwise_append]
              have hmx : 0 ≤ moved.size.x := by
                rw [hsz]
                exact le_trans hmin (genRange_bounds _ _ _ _ hsx).1
              have hmy : 0 ≤ moved.size.y := by
                rw [hsz]
                exact le_trans hmin (genRange_bounds _ _ _ _ hsy).1
              obtain ⟨hcx1, hcy1, hcx2, hcy2⟩ := cropRoom_sub moved floor hmx hmy
              refine ⟨hpw, List.pairwise_singleton _ _, ?_⟩
              intro a ha b hb
              have hbc : b = cropRoom moved floor := by simpa using hb
              subst hbc
              by_contra hne
              have htr : a.touching (cropRoom moved floor) = true := by
                cases hh : a.touching (cropRoom moved floor) with
                | false => exact absurd hh hne
                | true => rfl
              rw [Rect.touching_symm] at htr
              have hmt := Rect.touching_mono moved (cropRoom moved floor) a
                hcx1 hcy1 hcx2 hcy2 htr
              rw [hnt a ha] at hmt
              cases hmt
        · exact PlaceOut.noConfusion heq
      · exact PlaceOut.noConfusion heq
    · rw [if_neg hcond] at heq
      injection heq with h1 h2
      subst h1
      exact hpw

/-- C3: whenever room placement completes (returns its accepted list,
before corridor carving), every two distinct accepted rooms are
non-touching (`Rectangle::touching` is false), for every configuration
with non-negative minimum room size (the spec's input contract requires
positive sizes) and every rng oracle. -/
theorem C3_accepted_rooms_pairwise_non_touching (cfg : GenConfig)
    (O : Nat → Int) (fuel : Nat) (out : List Rect) (nk : Nat)
    (hmin : 0 ≤ cfg.minRoomSize)
    (h : placeLoop cfg (borderFloor cfg) O fuel 0 [] 0 0 = .ok out nk) :
    List.Pairwise (fun a b => a.touching b = false) out :=
  placeLoop_pairwise cfg (borderFloor cfg) O hmin fuel 0 [] 0 0 out nk
    List.Pairwise.nil h

/-- Witness for C3: a 12×12 tileport with 3×3 rooms and a low floor
ratio accepts one room and stops. -/
theorem C3_accepted_rooms_witness :
    List.Pairwise (fun a b => a.touching b = false)
      [Rect.mk ⟨1, 1⟩ ⟨3, 3⟩] :=
  C3_accepted_rooms_pairwise_non_touching
    ⟨⟨0, 0⟩, ⟨12, 12⟩, mkRat 1 20, 3, 3⟩ (fun _ => 0) 3
    [Rect.mk ⟨1, 1⟩ ⟨3, 3⟩] 5 (by decide) (by decide)

/-- `Floor` material from `level.rs` (cosmetic only). -/
inductive FloorKind where
  | Stone
  | Grass
  | Wood
deriving DecidableEq, Repr

/-- `Tile` from `level.rs`. -/
inductive Tile where
  | Floor (kind : FloorKind)
  | Wall
deriving DecidableEq, Repr

/-- Terrain map (`HashMap<TilePoint, Tile>`), association list as for
`PMap`. -/
abbrev TMap := List (Pt × Tile)

/-- `HashMap::get` on terrain. -/
def TMap.get (m : TMap) (p : Pt) : Option Tile :=
  (m.find? (fun q => decide (q.1 = p))).map (·.2)

/-- `HashMap::insert` on terrain. -/
def TMap.insert : TMap → Pt → Tile → TMap
  | [], p, t => [(p, t)]
  | q :: l, p, t => if q.1 = p then (p, t) :: l else q :: TMap.insert l p t

/-- `terrain.entry(p).or_insert(Tile::Wall)`. -/
def TMap.orInsertWall (m : TMap) (p : Pt) : TMap :=
  match m.get p with
  | some _ => m
  | none => m.insert p Tile.Wall

/-- `make_floor` from `Level::generate`: place the floor tile and
surround it with walls wherever no tile exists yet. -/
def makeFloor (m : TMap) (coords : Pt) (kind : FloorKind) : TMap :=
  (intRange (coords.x - 1) (coords.x + 1)).foldl
    (fun m x =>
      (intRange (coords.y - 1) (coords.y + 1)).foldl
        (fun m y =>
          if x = coords.x ∧ y = coords.y then m.insert coords (Tile.Floor kind)
          else m.orInsertWall ⟨x, y⟩)
        m)
    m

/-- The "open the floor of each room" pass of `Level::generate`: one
bool draw per room picks wood or grass, then every room tile is carved.
Returns the map and the next oracle index. -/
def carveRooms (O : Nat → Int) : List Rect → Nat → TMap → TMap × Nat
  | [], k, m => (m, k)
  | r :: t, k, m =>
    carveRooms O t (k + 1)
      ((intRange r.pos.x (r.pos.x + r.size.x - 1)).foldl
        (fun m x =>
          (intRange r.pos.y (r.pos.y + r.size.y - 1)).foldl
            (fun m y =>
              makeFloor m ⟨x, y⟩
                (if (O k).emod 2 = 1 then FloorKind.Wood else FloorKind.Grass))
            m)
        m)

/-- `LineOfSightIterator` state from `vision.rs`. -/
structure LosIter where
  p1 : Pt
  p2 : Pt
  d : Vec
  sign : Vec
  error : Int
  has_next : Bool
deriving Repr

/-- The second half of `LineOfSightIterator::iterate` (the `error2 <=
d.x` branch, run with the `error2` computed before the first branch). -/
def losSecond (error2 : Int) (it : LosIter) : LosIter :=
  if error2 ≤ it.d.x then
    if it.p1.y = it.p2.y then { it with has_next := false }
    else { it with error := it.error + it.d.x, p1 := ⟨it.p1.x, it.p1.y + it.sign.y⟩ }
  else it

/-- `LineOfSightIterator::iterate` from `vision.rs`. -/
def losIterate (it : LosIter) : LosIter :=
  if it.p1 = it.p2 then { it with has_next := false }
  else if it.d.y ≤ 2 * it.error then
    if it.p1.x = it.p2.x then { it with has_next := false }
    else
      losSecond (2 * it.error)
        { it with error := it.error + it.d.y, p1 := ⟨it.p1.x + it.sign.x, it.p1.y⟩ }
  else losSecond (2 * it.error) it

/-- The iterator's `next` repeated, with fuel (each step yields the
current `p1` then iterates; stops when `has_next` is cleared). -/
def losList : Nat → LosIter → List Pt
  | 0, _ => []
  | fuel + 1, it => if it.has_next then it.p1 :: losList fuel (losIterate it) else []

/-- `line_between` from `vision.rs` (Bresenham, fuelled). -/
def line_between (fuel : Nat) (p1 p2 : Pt) : List Pt :=
  losList fuel
    { p1 := p1, p2 := p2,
      d := ⟨|p2.x - p1.x|, -|p2.y - p1.y|⟩,
      sign := ⟨Int.sign (p2.x - p1.x), Int.sign (p2.y - p1.y)⟩,
      error := |p2.x - p1.x| + -|p2.y - p1.y|,
      has_next := true }

/-- The `Edge` record of `Level::generate`'s connection phase. -/
structure CorridorEdge where
  i : Nat
  j : Nat
  inter : RectIntersection

/-- All room pairs `(i, j)` with `i ≤ j` (the source's `skip(i)` includes
the self pair), with their rectangle intersections. -/
def buildEdges (rooms : List Rect) : List CorridorEdge :=
  (List.range rooms.length).bind (fun i =>
    ((List.range rooms.length).drop i).map (fun j =>
      ⟨i, j, (rooms.getD i ⟨⟨0, 0⟩, ⟨0, 0⟩⟩).intersection
        (rooms.getD j ⟨⟨0, 0⟩, ⟨0, 0⟩⟩)⟩))

/-- Stable insertion into a descending-by-distance list (equal distances
keep their original order, as Rust's stable `sort_by` does). -/
def insertEdgeDesc (e : CorridorEdge) : List CorridorEdge → List CorridorEdge
  | [] => [e]
  | f :: t =>
    if f.inter.distance < e.inter.distance then e :: f :: t
    else f :: insertEdgeDesc e t

/-- `edges.sort_by(|e1, e2| e2.distance.cmp(e1.distance))`: stable sort,
descending by gap distance (so pops from the vec's end see ascending
distances). -/
def sortEdgesDesc : List CorridorEdge → List CorridorEdge
  | [] => []
  | e :: t => insertEdgeDesc e (sortEdgesDesc t)

/-- The elbow waypoints of the `RectangleIntersection::None` connection
case: expand the gap rectangle up-left by one, orient the diagonal by
the two rooms' relative position, and pick one of the two elbow corners
by a coin flip. -/
def elbowWaypoints (room1 room2 rect : Rect) (coin : Bool) : List Pt :=
  let epos : Pt := ⟨rect.pos.x - 1, rect.pos.y - 1⟩
  let esize : Vec := ⟨rect.size.x + 1, rect.size.y + 1⟩
  let pa : Pt := epos
  let pb : Pt := ⟨epos.x + esize.x, epos.y + esize.y⟩
  let pq : Pt × Pt :=
    if (decide (room1.pos.x ≤ room2.pos.x)) = (decide (room1.pos.y ≤ room2.pos.y))
    then (pa, pb)
    else (⟨pa.x, pb.y⟩, ⟨pb.x, pa.y⟩)
  let p2 : Pt := if coin then ⟨pq.1.x, pq.2.y⟩ else ⟨pq.2.x, pq.1.y⟩
  [pq.1, p2, pq.2]

/-- Carve stone floor along consecutive waypoint segments
(`waypoints.windows(2)` with `line_between`). -/
def carveWaypoints (fuel : Nat) : TMap → List Pt → TMap
  | m, w1 :: w2 :: rest =>
    carveWaypoints fuel
      ((line_between fuel w1 w2).foldl (fun m c => makeFloor m c FloorKind.Stone) m)
      (w2 :: rest)
  | m, _ => m

/-- Result of modelled generation. -/
inductive GenOut where
  | panic
  | fuelOut
  | ok (terrain : TMap)
deriving DecidableEq, Repr

/-- The waypoints of one connection, with the rng draws it consumes
(`none` models a `gen_range` panic on an empty range). -/
def edgeWaypoints (rooms : List Rect) (O : Nat → Int) (k : Nat)
    (e : CorridorEdge) : Option (List Pt × Nat) :=
  match e.inter with
  | .Real _ => some ([], k)
  | .Horizontal rect =>
    match genRangeHalf rect.pos.x (rect.pos.x + rect.size.x) (O k) with
    | none => none
    | some x =>
      some ([⟨x, rect.pos.y⟩, ⟨x, rect.pos.y + rect.size.y - 1⟩], k + 1)
  | .Vertical rect =>
    match genRangeHalf rect.pos.y (rect.pos.y + rect.size.y) (O k) with
    | none => none
    | some y =>
      some ([⟨rect.pos.x, y⟩, ⟨rect.pos.x + rect.size.x - 1, y⟩], k + 1)
  | .None rect =>
    some (elbowWaypoints (rooms.getD e.i ⟨⟨0, 0⟩, ⟨0, 0⟩⟩)
      (rooms.getD e.j ⟨⟨0, 0⟩, ⟨0, 0⟩⟩) rect ((O k).emod 2 = 1), k + 1)

/-- The `while let Some(edge) = edges.pop()` connection loop of
`Level::generate`; the edge list holds the sorted edges in pop order
(ascending distance).  Carve the connection, merge the two rooms' sets,
and stop early once all rooms are connected and the last edge exceeded
the slack distance. -/
def corridorLoop (rooms : List Rect) (O : Nat → Int) :
    Nat → Nat → TMap → DisjointSets → List CorridorEdge → GenOut
  | 0, _, _, _, _ => .fuelOut
  | _ + 1, _, m, _, [] => .ok m
  | fuel + 1, k, m, ds, e :: rest =>
    match edgeWaypoints rooms O k e with
    | none => .panic
    | some (ws, k') =>
      match ds.merge e.i e.j with
      | none => .panic
      | some (ds', sz) =>
        if sz = rooms.length ∧ 2 < e.inter.distance then
          .ok (carveWaypoints fuel m ws)
        else corridorLoop rooms O fuel k' (carveWaypoints fuel m ws) ds' rest

/-- `Level::generate` modelled through terrain construction: room
placement, room carving, and corridor connection.  The remaining source
phases (screen layout and creature spawning) perform no `gen_range` on
possibly-empty ranges and no other fallible operation, and produce no
tile geometry, so the model stops here. -/
def generateModel (cfg : GenConfig) (O : Nat → Int) (fuel : Nat) : GenOut :=
  match placeLoop cfg (borderFloor cfg) O fuel 0 [] 0 0 with
  | .panic => .panic
  | .fuelOut => .fuelOut
  | .ok rooms k =>
    corridorLoop rooms O fuel (carveRooms O rooms k []).2 (carveRooms O rooms k []).1
      (DisjointSets.new rooms.length) (sortEdgesDesc (buildEdges rooms)).reverse

/-- The C8 counterexample configuration: `min_room_size = 3 >
max_room_size = 2`, but `min_floor_ratio = 0`. -/
def cfgC8 : GenConfig := ⟨⟨0, 0⟩, ⟨12, 12⟩, mkRat 0 1, 3, 2⟩

/-- C8 counterexample: a configuration with `min_room_size >
max_room_size` on which `Level::generate` returns a level (empty
terrain) without panicking: with `min_floor_ratio = 0` the coverage
test `0/total < 0` is false, so the loop body — and with it the
panicking `gen_range(min..=max)` — never runs. -/
theorem C8_min_gt_max_no_panic_counterexample :
    cfgC8.maxRoomSize < cfgC8.minRoomSize ∧
      generateModel cfgC8 (fun _ => 0) 5 = GenOut.ok [] := by
  constructor
  · decide
  · decide

/-- C8 (amended): whenever the coverage-loop body actually runs (the
initial ratio test passes), a configuration with `min_room_size >
max_room_size` panics at the size draw, and a region too small in
either axis to fit rooms of the minimum size (with `min ≤ max`) panics
at the corresponding position draw; but configurations whose ratio
test immediately fails (e.g. `min_floor_ratio = 0`, or NaN from a
zero-area region) return a level without panicking, as the
counterexample shows. -/
theorem C8_generate_panics_when_loop_runs (cfg : GenConfig) (O : Nat → Int)
    (fuel : Nat) (hfuel : 0 < fuel)
    (hratio : ratioLT 0 (borderFloor cfg).area cfg.minFloorRatio = true)
    (hbad : cfg.maxRoomSize < cfg.minRoomSize ∨
      (cfg.minRoomSize ≤ cfg.maxRoomSize ∧
        ((borderFloor cfg).size.x < cfg.minRoomSize ∨
          (borderFloor cfg).size.y < cfg.minRoomSize))) :
    generateModel cfg O fuel = GenOut.panic := by
  obtain ⟨f, rfl⟩ : ∃ f, fuel = f + 1 := ⟨fuel - 1, by omega⟩
  have hplace : placeLoop cfg (borderFloor cfg) O (f + 1) 0 [] 0 0 = .panic := by
    unfold placeLoop
    rw [if_pos hratio]
    rcases hbad with h | ⟨hmm, hsmall⟩
    · have h1 : genRange cfg.minRoomSize cfg.maxRoomSize (O 0) = none := by
        unfold genRange
        rw [if_pos h]
      simp only [h1]
    · have h1 : genRange cfg.minRoomSize cfg.maxRoomSize (O 0) =
          some (cfg.minRoomSize +
            (O 0).emod (cfg.maxRoomSize - cfg.minRoomSize + 1)) := by
        unfold genRange
        rw [if_neg (by omega)]
      have h2 : genRange cfg.minRoomSize cfg.maxRoomSize (O 1) =
          some (cfg.minRoomSize +
            (O 1).emod (cfg.maxRoomSize - cfg.minRoomSize + 1)) := by
        unfold genRange
        rw [if_neg (by omega)]
      have hsx0 : 0 ≤ (O 0).emod (cfg.maxRoomSize - cfg.minRoomSize + 1) :=
        Int.emod_nonneg _ (by omega)
      have hsy0 : 0 ≤ (O 1).emod (cfg.maxRoomSize - cfg.minRoomSize + 1) :=
        Int.emod_nonneg _ (by omega)
      rcases hsmall with hfx | hfy
      · have h3 : genRange 0 ((borderFloor cfg).size.x -
            (cfg.minRoomSize +
              (O 0).emod (cfg.maxRoomSize - cfg.minRoomSize + 1)))
            (O 2) = none := by
          unfold genRange
          rw [if_pos (by omega)]
        simp only [h1, h2, h3]
      · have h4 : genRange 0 ((borderFloor cfg).size.y -
            (cfg.minRoomSize +
              (O 1).emod (cfg.maxRoomSize - cfg.minRoomSize + 1)))
            (O 3) = none := by
          unfold genRange
          rw [if_pos (by omega)]
        by_cases hx : (borderFloor cfg).size.x -
            (cfg.minRoomSize +
              (O 0).emod (cfg.maxRoomSize - cfg.minRoomSize + 1)) < 0
        · have h3 : genRange 0 ((borderFloor cfg).size.x -
              (cfg.minRoomSize +
                (O 0).emod (cfg.maxRoomSize - cfg.minRoomSize + 1)))
              (O 2) = none := by
            unfold genRange
            rw [if_pos hx]
          simp only [h1, h2, h3]
        · have h3 : genRange 0 ((borderFloor cfg).size.x -
              (cfg.minRoomSize +
                (O 0).emod (cfg.maxRoomSize - cfg.minRoomSize + 1)))
              (O 2) = some (0 + (O 2).emod ((borderFloor cfg).size.x -
                (cfg.minRoomSize +
                  (O 0).emod (cfg.maxRoomSize - cfg.minRoomSize + 1)) - 0 + 1)) := by
            unfold genRange
            rw [if_neg hx]
          simp only [h1, h2, h3, h4]
  unfold generateModel
  simp only [hplace]

/-- Witness for the amended C8: a 12×12 region with `min_room_size 3 >
max_room_size 2` panics at the size draw, and a 12×3 region (bordered
floor 10×1, deficient only in `y`) with `min_room_size 3 ≤
max_room_size 4` panics at the `y`-position draw. -/
theorem C8_generate_panics_witness :
    generateModel ⟨⟨0, 0⟩, ⟨12, 12⟩, mkRat 1 2, 3, 2⟩ (fun _ => 0) 1 =
        GenOut.panic ∧
      generateModel ⟨⟨0, 0⟩, ⟨12, 3⟩, mkRat 1 2, 3, 4⟩ (fun _ => 0) 1 =
        GenOut.panic :=
  ⟨C8_generate_panics_when_loop_runs ⟨⟨0, 0⟩, ⟨12, 12⟩, mkRat 1 2, 3, 2⟩
      (fun _ => 0) 1 (by omega) (by decide) (Or.inl (by decide)),
    C8_generate_panics_when_loop_runs ⟨⟨0, 0⟩, ⟨12, 3⟩, mkRat 1 2, 3, 4⟩
      (fun _ => 0) 1 (by omega) (by decide)
      (Or.inr ⟨by decide, Or.inr (by decide)⟩)⟩

end RL
